import Mathlib

/-!
# Dual-capacity AVL tree (`DualAVLTree<int>` of `src/main.cpp`)

A shallow embedding of the tree of `src/main.cpp` and a verification of its
contract.

* A `Node*` is a `Tree`: `Tree.null` is `nullptr`, `Tree.node keys height left right`
  is a pointer to a node with these four fields.
* Keys are `Int` (the program instantiates `key_t = int`; the tree operations only
  compare keys, they do no arithmetic on them).  Cached heights are `Int`.
* Every function that the C++ code may leave undefined (dereferencing `nullptr`,
  `keys[0]` of an empty vector, an out-of-range `stat[...]`) returns `none` there.
* `insert`, `remove`, `balance` and the two key rotations are mutually recursive in the
  source.  `insert` and `remove` take a fuel argument bounding the depth of nested
  `insert`/`remove` calls; `balance` and the key rotations receive the recursive
  `insert` and `remove` as arguments.  Running out of fuel is `none`.
* The class has the single data member `root`; its public methods are functions of `root`.
* The `for` loops of the range methods take a bound `iters` on the number of iterations;
  a loop that needs more iterations, or whose counter `k += step` leaves `int`, is `none`.
-/

namespace DualAVLTree

/-- The value of `numeric_limits<int>::min()`. -/
def KEY_NEG_INF : Int := -2147483648

/-- The value of `numeric_limits<int>::max()`. -/
def KEY_POS_INF : Int := 2147483647

def EMPTY_NODE_HEIGHT : Int := -1

def NODE_HEIGHT : Int := 1 + EMPTY_NODE_HEIGHT

def MAX_INTERNAL_NODE_KEYS : Nat := 2

def MAX_LEAF_KEYS : Nat := 3

/-- A `Node*`: either `nullptr` or a node with its key vector, cached height and children. -/
inductive Tree where
  | null : Tree
  | node (keys : List Int) (height : Int) (left right : Tree) : Tree
  deriving DecidableEq, Repr

namespace Node

/-- The method `Node::is_leaf`, reading the two child pointers. -/
def is_leaf (left right : Tree) : Bool :=
  (left == Tree.null) && (right == Tree.null)

/-- The method `Node::size`. -/
def size (keys : List Int) : Nat := keys.length

/-- The method `Node::min`: `keys[0]`. -/
def min (keys : List Int) : Option Int := keys.head?

/-- The method `Node::max`: `keys[keys.size() - 1]`. -/
def max (keys : List Int) : Option Int := keys.getLast?

/-- The method `Node::push`: the returned flag and the new key vector. -/
def push (keys : List Int) (k : Int) : Bool × List Int :=
  if keys.any (fun key => k == key) then (false, keys)
  else (true, (keys ++ [k]).insertionSort (fun a b => a ≤ b))

/-- The method `Node::pop_min`: the returned key and the new key vector. -/
def pop_min (keys : List Int) : Option (Int × List Int) :=
  match keys with
  | [] => none
  | mn :: rest => some (mn, rest)

/-- The method `Node::pop_max`: the returned key and the new key vector. -/
def pop_max (keys : List Int) : Option (Int × List Int) :=
  match keys.getLast? with
  | none => none
  | some mx => some (mx, keys.dropLast)

/-- The method `Node::erase`: the returned flag and the new key vector. -/
def erase (keys : List Int) (k : Int) : Bool × List Int :=
  if keys.any (fun key => key == k) then (true, keys.erase k) else (false, keys)

end Node

namespace Tree

/-- The function `height(Node*)`. -/
def height : Tree → Int
  | null => EMPTY_NODE_HEIGHT
  | node _ h _ _ => h

/-- The function `update_height(Node*)`. -/
def update_height : Tree → Option Tree
  | null => none
  | node ks _ l r => some (node ks (Max.max (height l) (height r) + 1) l r)

/-- The function `left_node_rotate(Node*)`. -/
def left_node_rotate : Tree → Option Tree
  | node ks h l (node rks rh rl rr) => do
    let n ← update_height (node ks h l rl)
    update_height (node rks rh n rr)
  | _ => none

/-- The function `right_node_rotate(Node*)`. -/
def right_node_rotate : Tree → Option Tree
  | node ks h (node lks lh ll lr) r => do
    let n ← update_height (node ks h lr r)
    update_height (node lks lh ll n)
  | _ => none

/-- The function `find_min(Node*)`: the leftmost node. -/
def find_min : Tree → Option Tree
  | null => none
  | node ks h null r => some (node ks h null r)
  | node _ _ (node lks lh ll lr) _ => find_min (node lks lh ll lr)

/-- The function `find_max(Node*)`: the rightmost node. -/
def find_max : Tree → Option Tree
  | null => none
  | node ks h l null => some (node ks h l null)
  | node _ _ _ (node rks rh rl rr) => find_max (node rks rh rl rr)

/-- The key vector of the node a pointer points to. -/
def keys? : Tree → Option (List Int)
  | null => none
  | node ks _ _ _ => some ks

/-- The function `left_key_rotate(Node*)`, given the recursive `insert` and `remove`. -/
def left_key_rotate (ins rem : Int → Tree → Option Tree) : Tree → Option Tree
  | null => none
  | node ks h l r => do
    let rn ← find_min r
    let rks ← keys? rn
    let m ← Node.min rks
    let ks1 := (Node.push ks m).2
    let r1 ← rem m r
    if !Node.is_leaf l r1 then do
      let p ← Node.pop_min ks1
      let l1 ← ins p.1 l
      update_height (node p.2 h l1 r1)
    else update_height (node ks1 h l r1)

/-- The function `right_key_rotate(Node*)`, given the recursive `insert` and `remove`. -/
def right_key_rotate (ins rem : Int → Tree → Option Tree) : Tree → Option Tree
  | null => none
  | node ks h l r => do
    let ln ← find_max l
    let lks ← keys? ln
    let m ← Node.max lks
    let ks1 := (Node.push ks m).2
    let l1 ← rem m l
    if !Node.is_leaf l1 r then do
      let p ← Node.pop_max ks1
      let r1 ← ins p.1 r
      update_height (node p.2 h l1 r1)
    else update_height (node ks1 h l1 r)

/-- The key-rotation part of `balance`: the `if (!n->is_leaf())` statement. -/
def balance_keys (ins rem : Int → Tree → Option Tree) : Tree → Option Tree
  | null => none
  | node ks h l r =>
    if !Node.is_leaf l r then
      if l == null then left_key_rotate ins rem (node ks h l r)
      else if r == null then right_key_rotate ins rem (node ks h l r)
      else some (node ks h l r)
    else some (node ks h l r)

/-- The node-rotation part of `balance`: the `switch` statement. -/
def balance_nodes : Tree → Option Tree
  | null => none
  | node ks h l r =>
    if height r - height l = -2 then
      match l with
      | null => none
      | node lks lh ll lr => do
        let l1 ← if height ll < height lr then left_node_rotate (node lks lh ll lr)
                 else some (node lks lh ll lr)
        right_node_rotate (node ks h l1 r)
    else if height r - height l = 2 then
      match r with
      | null => none
      | node rks rh rl rr => do
        let r1 ← if height rl > height rr then right_node_rotate (node rks rh rl rr)
                 else some (node rks rh rl rr)
        left_node_rotate (node ks h l r1)
    else some (node ks h l r)

/-- The function `balance(Node*)`, given the recursive `insert` and `remove`. -/
def balance (ins rem : Int → Tree → Option Tree) (n : Tree) : Option Tree := do
  let n1 ← update_height n
  let n2 ← balance_keys ins rem n1
  balance_nodes n2

/-- The body of `insert(key_t, Node*)`, given the recursive `insert` and `remove`. -/
def insert_body (ins rem : Int → Tree → Option Tree) (k : Int) : Tree → Option Tree
  | null => some (node [k] NODE_HEIGHT null null)
  | node ks h l r =>
    if Node.is_leaf l r then
      if (Node.push ks k).1 && decide (Node.size (Node.push ks k).2 > MAX_LEAF_KEYS) then do
        let p ← Node.pop_min (Node.push ks k).2
        let l1 ← ins p.1 l
        let q ← Node.pop_max p.2
        let r1 ← ins q.1 r
        balance ins rem (node q.2 h l1 r1)
      else balance ins rem (node (Node.push ks k).2 h l r)
    else do
      let mn ← Node.min ks
      if k < mn then do
        let l1 ← ins k l
        balance ins rem (node ks h l1 r)
      else do
        let mx ← Node.max ks
        if k > mx then do
          let r1 ← ins k r
          balance ins rem (node ks h l r1)
        else if (Node.push ks k).1
            && decide (Node.size (Node.push ks k).2 > MAX_INTERNAL_NODE_KEYS) then
          if height l ≤ height r then do
            let p ← Node.pop_min (Node.push ks k).2
            let l1 ← ins p.1 l
            balance ins rem (node p.2 h l1 r)
          else do
            let q ← Node.pop_max (Node.push ks k).2
            let r1 ← ins q.1 r
            balance ins rem (node q.2 h l r1)
        else balance ins rem (node (Node.push ks k).2 h l r)

/-- The body of `remove(key_t, Node*)`, given the recursive `insert` and `remove`. -/
def remove_body (ins rem : Int → Tree → Option Tree) (k : Int) : Tree → Option Tree
  | null => some null
  | node ks h l r =>
    if Node.is_leaf l r then
      if (Node.erase ks k).1 && decide (Node.size (Node.erase ks k).2 = 0) then some null
      else balance ins rem (node (Node.erase ks k).2 h l r)
    else do
      let mn ← Node.min ks
      if k < mn then do
        let l1 ← rem k l
        balance ins rem (node ks h l1 r)
      else do
        let mx ← Node.max ks
        if k > mx then do
          let r1 ← rem k r
          balance ins rem (node ks h l r1)
        else if (Node.erase ks k).1 then
          if height l ≤ height r then do
            let rn ← find_min r
            let rks ← keys? rn
            let m ← Node.min rks
            let r1 ← rem m r
            balance ins rem (node (Node.push (Node.erase ks k).2 m).2 h l r1)
          else do
            let ln ← find_max l
            let lks ← keys? ln
            let m ← Node.max lks
            let l1 ← rem m l
            balance ins rem (node (Node.push (Node.erase ks k).2 m).2 h l1 r)
        else balance ins rem (node ks h l r)

mutual

/-- The function `insert(key_t, Node*)`; `fuel` bounds the nesting of `insert`/`remove` calls. -/
def insert : Nat → Int → Tree → Option Tree
  | 0, _, _ => none
  | fuel + 1, k, n => insert_body (insert fuel) (remove fuel) k n

/-- The function `remove(key_t, Node*)`; `fuel` bounds the nesting of `insert`/`remove` calls. -/
def remove : Nat → Int → Tree → Option Tree
  | 0, _, _ => none
  | fuel + 1, k, n => remove_body (insert fuel) (remove fuel) k n

end

/-- The function `get_statistics(vector<int>&, const Node*)`; an index outside `stat` is `none`. -/
def get_statistics (stat : List Int) : Tree → Option (List Int)
  | null => some stat
  | node ks _ l r => do
    let s0 ← if 0 < stat.length then some (stat.modify (fun c => c + 1) 0) else none
    let s1 ← if Node.is_leaf l r then
               (if Node.size ks < s0.length then some (s0.modify (fun c => c + 1) (Node.size ks))
                else none)
             else some s0
    let s2 ← get_statistics s1 l
    get_statistics s2 r

end Tree

/-- The method `empty()`, as a function of the data member `root`. -/
def empty (root : Tree) : Bool := root == Tree.null

/-- The method `insert(key_t)`: the new value of `root`. -/
def insert (fuel : Nat) (k : Int) (root : Tree) : Option Tree :=
  Tree.insert fuel k root

/-- The method `remove(key_t)`: the new value of `root`. -/
def remove (fuel : Nat) (k : Int) (root : Tree) : Option Tree :=
  Tree.remove fuel k root

/-- The method `find_min()`. -/
def find_min (root : Tree) : Option Int :=
  if empty root then some KEY_POS_INF
  else do
    let n ← Tree.find_min root
    let ks ← Tree.keys? n
    Node.min ks

/-- The method `find_max()`. -/
def find_max (root : Tree) : Option Int :=
  if empty root then some KEY_NEG_INF
  else do
    let n ← Tree.find_max root
    let ks ← Tree.keys? n
    Node.max ks

/-- The method `get_statistics()`. -/
def get_statistics (root : Tree) : Option (List Int) :=
  Tree.get_statistics (List.replicate (1 + MAX_LEAF_KEYS) 0) root

/-! ## Specification vocabulary -/

namespace Tree

/-- The results of `f` are results of `g`. -/
def FunLe (f g : Int → Tree → Option Tree) : Prop :=
  ∀ k t r, f k t = some r → g k t = some r

/-- The in-order concatenation of the key lists of all nodes. -/
def keysOf : Tree → List Int
  | null => []
  | node ks _ l r => keysOf l ++ ks ++ keysOf r

/-- The true height of a subtree: `-1` for an absent one, `0` for a single node. -/
def realHeight : Tree → Int
  | null => -1
  | node _ _ l r => Max.max (realHeight l) (realHeight r) + 1

/-- Insertion of a key into a strictly increasing list, keeping it duplicate-free. -/
def insertKey (k : Int) : List Int → List Int
  | [] => [k]
  | x :: xs => if k < x then k :: x :: xs else if k = x then x :: xs else x :: insertKey k xs

/-- The structural invariant maintained by `insert` and `remove`, on cached heights:
every node has a key, caches `1 + max` of its children's cached heights, is balanced,
and is either a leaf with at most 3 keys or has two children and at most 2 keys. -/
def Inv : Tree → Prop
  | null => True
  | node ks h l r =>
    Inv l ∧ Inv r ∧ ks ≠ [] ∧ h = Max.max (height l) (height r) + 1 ∧
    height r - height l ≤ 1 ∧ height l - height r ≤ 1 ∧
    ((l = null ∧ r = null ∧ ks.length ≤ 3) ∨ (l ≠ null ∧ r ≠ null ∧ ks.length ≤ 2))

/-- What `insert(k, t)` returning `t1` guarantees. -/
def InsPost (t : Tree) (k : Int) (t1 : Tree) : Prop :=
  Inv t1 ∧ keysOf t1 = insertKey k (keysOf t) ∧ t1 ≠ null ∧
  height t ≤ height t1 ∧ height t1 ≤ height t + 1

/-- What `remove(k, t)` returning `t1` guarantees. -/
def RemPost (t : Tree) (k : Int) (t1 : Tree) : Prop :=
  Inv t1 ∧ keysOf t1 = (keysOf t).erase k ∧
  height t1 ≤ height t ∧ height t - 1 ≤ height t1

/-- The search-order invariant at every node: the key list is strictly increasing and
non-empty, every key of the left subtree is below the node's minimum key and every key of
the right subtree is above the node's maximum key. -/
def SearchOrder : Tree → Prop
  | null => True
  | node ks _ l r =>
    ks.Sorted (· < ·) ∧ ks ≠ [] ∧
    (∀ x ∈ keysOf l, ∀ mn ∈ Node.min ks, x < mn) ∧
    (∀ x ∈ keysOf r, ∀ mx ∈ Node.max ks, mx < x) ∧
    SearchOrder l ∧ SearchOrder r

/-- The AVL balance condition on true heights, at every node. -/
def AVL : Tree → Prop
  | null => True
  | node _ _ l r => |realHeight l - realHeight r| ≤ 1 ∧ AVL l ∧ AVL r

/-- The capacity rule at every node: a leaf holds 1 to 3 keys, an internal node 1 to 2. -/
def Capacity : Tree → Prop
  | null => True
  | node ks _ l r =>
    (if Node.is_leaf l r then 1 ≤ Node.size ks ∧ Node.size ks ≤ MAX_LEAF_KEYS
     else 1 ≤ Node.size ks ∧ Node.size ks ≤ MAX_INTERNAL_NODE_KEYS) ∧
    Capacity l ∧ Capacity r

/-- Every leaf holds 1 to 3 keys (nothing is asked of internal nodes). -/
def LeafSizes : Tree → Prop
  | null => True
  | node ks _ l r =>
    (Node.is_leaf l r = true → 1 ≤ Node.size ks ∧ Node.size ks ≤ MAX_LEAF_KEYS) ∧
    LeafSizes l ∧ LeafSizes r

/-- The number of nodes of a tree. -/
def countNodes : Tree → Int
  | null => 0
  | node _ _ l r => 1 + countNodes l + countNodes r

/-- The number of leaves holding exactly `i` keys. -/
def countLeaves (i : Nat) : Tree → Int
  | null => 0
  | node ks _ l r =>
    (if Node.is_leaf l r && decide (Node.size ks = i) then 1 else 0)
      + countLeaves i l + countLeaves i r

/-- The number of internal nodes (nodes with at least one child). -/
def countInternal : Tree → Int
  | null => 0
  | node _ _ l r =>
    (if Node.is_leaf l r then 0 else 1) + countInternal l + countInternal r

instance LeafSizes.instDecidable : (t : Tree) → Decidable (LeafSizes t)
  | null => isTrue trivial
  | node ks _ l r =>
    have := LeafSizes.instDecidable l
    have := LeafSizes.instDecidable r
    inferInstanceAs (Decidable ((Node.is_leaf l r = true →
      1 ≤ Node.size ks ∧ Node.size ks ≤ MAX_LEAF_KEYS) ∧ LeafSizes l ∧ LeafSizes r))

instance Capacity.instDecidable : (t : Tree) → Decidable (Capacity t)
  | null => isTrue trivial
  | node ks _ l r =>
    have := Capacity.instDecidable l
    have := Capacity.instDecidable r
    inferInstanceAs (Decidable ((if Node.is_leaf l r then
        1 ≤ Node.size ks ∧ Node.size ks ≤ MAX_LEAF_KEYS
      else 1 ≤ Node.size ks ∧ Node.size ks ≤ MAX_INTERNAL_NODE_KEYS) ∧
      Capacity l ∧ Capacity r))

instance AVL.instDecidable : (t : Tree) → Decidable (AVL t)
  | null => isTrue trivial
  | node _ _ l r =>
    have := AVL.instDecidable l
    have := AVL.instDecidable r
    inferInstanceAs (Decidable (|realHeight l - realHeight r| ≤ 1 ∧ AVL l ∧ AVL r))

instance SearchOrder.instDecidable : (t : Tree) → Decidable (SearchOrder t)
  | null => isTrue trivial
  | node ks _ l r =>
    have := SearchOrder.instDecidable l
    have := SearchOrder.instDecidable r
    inferInstanceAs (Decidable (ks.Sorted (· < ·) ∧ ks ≠ [] ∧
      (∀ x ∈ keysOf l, ∀ mn ∈ Node.min ks, x < mn) ∧
      (∀ x ∈ keysOf r, ∀ mx ∈ Node.max ks, mx < x) ∧
      SearchOrder l ∧ SearchOrder r))

end Tree

/-- The trees a client can build: from the empty tree by `insert(key)` and `remove(key)`
calls that return. -/
inductive Reachable : Tree → Prop where
  | new : Reachable Tree.null
  | insert (fuel : Nat) (k : Int) {root root1 : Tree} :
      Reachable root → insert fuel k root = some root1 → Reachable root1
  | remove (fuel : Nat) (k : Int) {root root1 : Tree} :
      Reachable root → remove fuel k root = some root1 → Reachable root1

/-- A client calling `insert(k)` for each key of a list, in order. -/
def insert_all (fuel : Nat) : List Int → Tree → Option Tree
  | [], root => some root
  | k :: ks, root => (insert fuel k root).bind (insert_all fuel ks)

/-- A client calling `remove(k)` for each key of a list, in order. -/
def remove_all (fuel : Nat) : List Int → Tree → Option Tree
  | [], root => some root
  | k :: ks, root => (remove fuel k root).bind (remove_all fuel ks)

/-- The tree built by inserting 5, 1, 9, 3 into the empty tree: the leaf `1,5,9` splits
when 3 arrives. -/
def sample : Tree :=
  Tree.node [3, 5] 1 (Tree.node [1] 0 Tree.null Tree.null) (Tree.node [9] 0 Tree.null Tree.null)

def DEF_RANGE_STEP : Int := 1

/-- The loop of `insert(key_t start, key_t end, key_t step)` with the counter `int k` at
value `k`: `iters` bounds the number of iterations, and a `k += step` that leaves the range
of `int` is `none`. -/
def insert_loop (fuel : Nat) (end_ step : Int) : Nat → Int → Tree → Option Tree
  | 0, k, root => if k ≤ end_ then none else some root
  | iters + 1, k, root =>
    if k ≤ end_ then do
      let root1 ← insert fuel k root
      if KEY_NEG_INF ≤ k + step ∧ k + step ≤ KEY_POS_INF then
        insert_loop fuel end_ step iters (k + step) root1
      else none
    else some root

/-- The method `insert(key_t start, key_t end, key_t step)`; a caller that omits `step`
passes `DEF_RANGE_STEP`. -/
def insert_range (fuel iters : Nat) (start end_ step : Int) (root : Tree) : Option Tree :=
  insert_loop fuel end_ step iters start root

/-- The loop of `remove(key_t start, key_t end, key_t step)` with the counter `int k` at
value `k`: `iters` bounds the number of iterations, and a `k += step` that leaves the range
of `int` is `none`. -/
def remove_loop (fuel : Nat) (end_ step : Int) : Nat → Int → Tree → Option Tree
  | 0, k, root => if k ≤ end_ then none else some root
  | iters + 1, k, root =>
    if k ≤ end_ then do
      let root1 ← remove fuel k root
      if KEY_NEG_INF ≤ k + step ∧ k + step ≤ KEY_POS_INF then
        remove_loop fuel end_ step iters (k + step) root1
      else none
    else some root

/-- The method `remove(key_t start, key_t end, key_t step)`; a caller that omits `step`
passes `DEF_RANGE_STEP`. -/
def remove_range (fuel iters : Nat) (start end_ step : Int) (root : Tree) : Option Tree :=
  remove_loop fuel end_ step iters start root

/-- The arithmetic progression `start, start + step, start + 2 * step, ...` of all its
members that are at most `end_`, in ascending order (for `step ≥ 1`); empty when
`start > end_`. -/
def progression (start end_ step : Int) : List Int :=
  if start ≤ end_ then
    (List.range ((end_ - start) / step + 1).toNat).map
      (fun (i : Nat) => start + (i : Int) * step)
  else []

namespace Tree

/-- Every node has either no child or two children. -/
def TwoOrNone : Tree → Prop
  | null => True
  | node _ _ l r => ((l = null ∧ r = null) ∨ (l ≠ null ∧ r ≠ null)) ∧ TwoOrNone l ∧ TwoOrNone r

/-- Every node caches the true height of its subtree: `1 + max` of the true heights of its
children, an absent child counting `-1`. -/
def HeightsCached : Tree → Prop
  | null => True
  | node _ h l r =>
    h = 1 + Max.max (realHeight l) (realHeight r) ∧ HeightsCached l ∧ HeightsCached r

instance TwoOrNone.instDecidable : (t : Tree) → Decidable (TwoOrNone t)
  | null => isTrue trivial
  | node _ _ l r =>
    have := TwoOrNone.instDecidable l
    have := TwoOrNone.instDecidable r
    inferInstanceAs (Decidable (((l = null ∧ r = null) ∨ (l ≠ null ∧ r ≠ null)) ∧
      TwoOrNone l ∧ TwoOrNone r))

instance HeightsCached.instDecidable : (t : Tree) → Decidable (HeightsCached t)
  | null => isTrue trivial
  | node _ h l r =>
    have := HeightsCached.instDecidable l
    have := HeightsCached.instDecidable r
    inferInstanceAs (Decidable (h = 1 + Max.max (realHeight l) (realHeight r) ∧
      HeightsCached l ∧ HeightsCached r))

end Tree

end DualAVLTree

/-! ## Fuel: more fuel never changes a result -/

namespace DualAVLTree
namespace Tree

theorem left_key_rotate_mono {ins ins1 rem rem1 : Int → Tree → Option Tree}
    (hi : FunLe ins ins1) (hr : FunLe rem rem1) (n t : Tree)
    (h : left_key_rotate ins rem n = some t) : left_key_rotate ins1 rem1 n = some t := by
  cases n with
  | null => simp [left_key_rotate] at h
  | node ks hh l r =>
    simp only [left_key_rotate, Option.bind_eq_bind, Option.bind_eq_some] at h ⊢
    obtain ⟨rn, h1, rks, h2, m, h3, r1, h4, h5⟩ := h
    refine ⟨rn, h1, rks, h2, m, h3, r1, hr _ _ _ h4, ?_⟩
    split at h5
    · rename_i hc
      simp only [hc, if_true, Option.bind_eq_some] at h5 ⊢
      obtain ⟨p, hp, l1, hl1, h6⟩ := h5
      exact ⟨p, hp, l1, hi _ _ _ hl1, h6⟩
    · rename_i hc
      simpa [hc] using h5

theorem right_key_rotate_mono {ins ins1 rem rem1 : Int → Tree → Option Tree}
    (hi : FunLe ins ins1) (hr : FunLe rem rem1) (n t : Tree)
    (h : right_key_rotate ins rem n = some t) : right_key_rotate ins1 rem1 n = some t := by
  cases n with
  | null => simp [right_key_rotate] at h
  | node ks hh l r =>
    simp only [right_key_rotate, Option.bind_eq_bind, Option.bind_eq_some] at h ⊢
    obtain ⟨rn, h1, rks, h2, m, h3, r1, h4, h5⟩ := h
    refine ⟨rn, h1, rks, h2, m, h3, r1, hr _ _ _ h4, ?_⟩
    split at h5
    · rename_i hc
      simp only [hc, if_true, Option.bind_eq_some] at h5 ⊢
      obtain ⟨p, hp, l1, hl1, h6⟩ := h5
      exact ⟨p, hp, l1, hi _ _ _ hl1, h6⟩
    · rename_i hc
      simpa [hc] using h5

theorem balance_keys_mono {ins ins1 rem rem1 : Int → Tree → Option Tree}
    (hi : FunLe ins ins1) (hr : FunLe rem rem1) (n t : Tree)
    (h : balance_keys ins rem n = some t) : balance_keys ins1 rem1 n = some t := by
  cases n with
  | null => simp [balance_keys] at h
  | node ks hh l r =>
    simp only [balance_keys] at h ⊢
    split at h
    · rename_i hc
      simp only [hc, if_true]
      split at h
      · rename_i hc1
        simp only [hc1, if_true]
        exact left_key_rotate_mono hi hr _ _ h
      · rename_i hc1
        simp only [hc1]
        split at h
        · rename_i hc2
          simp only [hc2, if_true]
          exact right_key_rotate_mono hi hr _ _ h
        · rename_i hc2
          simpa [hc2] using h
    · rename_i hc
      simpa [hc] using h

theorem balance_mono {ins ins1 rem rem1 : Int → Tree → Option Tree}
    (hi : FunLe ins ins1) (hr : FunLe rem rem1) (n t : Tree)
    (h : balance ins rem n = some t) : balance ins1 rem1 n = some t := by
  simp only [balance, Option.bind_eq_bind, Option.bind_eq_some] at h ⊢
  obtain ⟨n1, h1, n2, h2, h3⟩ := h
  exact ⟨n1, h1, n2, balance_keys_mono hi hr _ _ h2, h3⟩

theorem opt_ite_mono {c : Prop} [Decidable c] {A A1 B B1 : Option Tree} {t : Tree}
    (h1 : A = some t → A1 = some t) (h2 : B = some t → B1 = some t) :
    (if c then A else B) = some t → (if c then A1 else B1) = some t := by
  split <;> assumption

theorem opt_bind_same {α : Type} {x : Option α} {f g : α → Option Tree} {t : Tree}
    (h : ∀ a, f a = some t → g a = some t) :
    x.bind f = some t → x.bind g = some t := by
  cases x with
  | none => simp
  | some a => simpa using h a

theorem opt_bind_call {ins ins1 : Int → Tree → Option Tree} (hi : FunLe ins ins1)
    {k : Int} {n : Tree} {f g : Tree → Option Tree} {t : Tree}
    (h : ∀ a, f a = some t → g a = some t) :
    (ins k n).bind f = some t → (ins1 k n).bind g = some t := by
  intro h1
  cases h2 : ins k n with
  | none => simp [h2] at h1
  | some a =>
    rw [h2] at h1
    rw [hi _ _ _ h2]
    simpa using h a (by simpa using h1)

theorem insert_body_mono {ins ins1 rem rem1 : Int → Tree → Option Tree}
    (hi : FunLe ins ins1) (hr : FunLe rem rem1) :
    FunLe (insert_body ins rem) (insert_body ins1 rem1) := by
  intro k n t
  cases n with
  | null => simp [insert_body]
  | node ks hh l r =>
    simp only [insert_body, Option.bind_eq_bind]
    repeat' first
      | exact balance_mono hi hr _ _
      | apply opt_ite_mono
      | (apply opt_bind_call hi; intro _)
      | (apply opt_bind_same; intro _)

theorem remove_body_mono {ins ins1 rem rem1 : Int → Tree → Option Tree}
    (hi : FunLe ins ins1) (hr : FunLe rem rem1) :
    FunLe (remove_body ins rem) (remove_body ins1 rem1) := by
  intro k n t
  cases n with
  | null => simp [remove_body]
  | node ks hh l r =>
    simp only [remove_body, Option.bind_eq_bind]
    repeat' first
      | exact balance_mono hi hr _ _
      | exact id
      | apply opt_ite_mono
      | (apply opt_bind_call hr; intro _)
      | (apply opt_bind_same; intro _)

theorem insert_remove_succ (f : Nat) :
    FunLe (insert f) (insert (f + 1)) ∧ FunLe (remove f) (remove (f + 1)) := by
  induction f with
  | zero => constructor <;> intro k t r h <;> simp [insert, remove] at h
  | succ f ih =>
    constructor
    · intro k t r h
      rw [insert] at h ⊢
      exact insert_body_mono ih.1 ih.2 _ _ _ h
    · intro k t r h
      rw [remove] at h ⊢
      exact remove_body_mono ih.1 ih.2 _ _ _ h

theorem insert_mono {f g : Nat} (hfg : f ≤ g) {k : Int} {t r : Tree}
    (h : insert f k t = some r) : insert g k t = some r := by
  induction hfg with
  | refl => exact h
  | step _ ih => exact (insert_remove_succ _).1 _ _ _ ih

theorem remove_mono {f g : Nat} (hfg : f ≤ g) {k : Int} {t r : Tree}
    (h : remove f k t = some r) : remove g k t = some r := by
  induction hfg with
  | refl => exact h
  | step _ ih => exact (insert_remove_succ _).2 _ _ _ ih

end Tree
end DualAVLTree

/-! ## Key lists -/

namespace DualAVLTree
namespace Tree

theorem insertKey_append_left (k : Int) (A B : List Int) (hB : ∀ b ∈ B, k < b) :
    insertKey k (A ++ B) = insertKey k A ++ B := by
  induction A with
  | nil =>
    cases B with
    | nil => rfl
    | cons b B1 => simp [insertKey, hB b (by simp)]
  | cons a A1 ih =>
    simp only [List.cons_append, insertKey]
    split_ifs <;> simp [ih]

theorem insertKey_append_right (k : Int) (A B : List Int) (hA : ∀ a ∈ A, a < k) :
    insertKey k (A ++ B) = A ++ insertKey k B := by
  induction A with
  | nil => rfl
  | cons a A1 ih =>
    have h1 : a < k := hA a (by simp)
    have h2 : ¬ k < a := by omega
    have h3 : ¬ k = a := by omega
    have h4 := ih (fun x hx => hA x (by simp [hx]))
    simp only [List.cons_append, insertKey, h2, h3, if_false]
    exact congrArg (List.cons a) h4

theorem insertKey_eq_cons (k : Int) (B : List Int) (hB : ∀ b ∈ B, k < b) :
    insertKey k B = k :: B := by
  simpa [insertKey] using insertKey_append_left k [] B hB

theorem insertKey_eq_append (k : Int) (A : List Int) (hA : ∀ a ∈ A, a < k) :
    insertKey k A = A ++ [k] := by
  simpa [insertKey] using insertKey_append_right k A [] hA

theorem mem_insertKey (k x : Int) (L : List Int) : x ∈ insertKey k L ↔ x = k ∨ x ∈ L := by
  induction L with
  | nil => simp [insertKey]
  | cons a A ih =>
    simp only [insertKey]
    split_ifs with h1 h2
    · simp
    · subst h2; simp
    · simp [ih]; tauto

theorem insertKey_sorted (k : Int) (L : List Int) (h : L.Sorted (· < ·)) :
    (insertKey k L).Sorted (· < ·) := by
  induction L with
  | nil => simp [insertKey]
  | cons a A ih =>
    simp only [insertKey]
    have hA := List.sorted_cons.1 h
    split_ifs with h1 h2
    · refine List.sorted_cons.2 ⟨?_, h⟩
      intro b hb
      rcases List.mem_cons.1 hb with rfl | hb
      · exact h1
      · exact lt_trans h1 (hA.1 b hb)
    · exact h
    · refine List.sorted_cons.2 ⟨?_, ih hA.2⟩
      intro b hb
      rcases (mem_insertKey k b A).1 hb with rfl | hb
      · omega
      · exact hA.1 b hb

theorem insertKey_of_mem (k : Int) (L : List Int) (h : L.Sorted (· < ·)) (hk : k ∈ L) :
    insertKey k L = L := by
  induction L with
  | nil => simp at hk
  | cons a A ih =>
    have hA := List.sorted_cons.1 h
    simp only [insertKey]
    rcases List.mem_cons.1 hk with rfl | hk
    · simp
    · have := hA.1 k hk
      have h2 : ¬ k < a := by omega
      have h3 : ¬ k = a := by omega
      simp [h2, h3, ih hA.2 hk]

theorem length_insertKey_of_not_mem (k : Int) (L : List Int) (hk : k ∉ L) :
    (insertKey k L).length = L.length + 1 := by
  induction L with
  | nil => rfl
  | cons a A ih =>
    simp only [List.mem_cons, not_or] at hk
    simp only [insertKey]
    split_ifs with h1 h2
    · rfl
    · exact absurd h2 hk.1
    · simp [ih hk.2]

theorem insertionSort_append_singleton (k : Int) (L : List Int) (h : L.Sorted (· < ·))
    (hk : k ∉ L) : (L ++ [k]).insertionSort (fun a b => a ≤ b) = insertKey k L := by
  apply List.eq_of_perm_of_sorted (r := fun a b : Int => a ≤ b)
  · refine (List.perm_insertionSort _ _).trans ?_
    clear h
    induction L with
    | nil => simp [insertKey]
    | cons a A ih =>
      simp only [List.mem_cons, not_or] at hk
      simp only [insertKey, List.cons_append]
      split_ifs with h1 h2
      · exact (List.perm_append_singleton k (a :: A))
      · exact absurd h2 hk.1
      · exact (ih hk.2).cons a
  · exact List.sorted_insertionSort _ _
  · exact (insertKey_sorted k L h).imp (fun hab => le_of_lt hab)

end Tree

namespace Node

open Tree

theorem push_spec (ks : List Int) (k : Int) (h : ks.Sorted (· < ·)) :
    push ks k = (decide (k ∉ ks), insertKey k ks) := by
  unfold push
  by_cases hk : k ∈ ks
  · have : (ks.any fun key => k == key) = true := by
      simp only [List.any_eq_true]; exact ⟨k, hk, by simp⟩
    simp [this, hk, insertKey_of_mem k ks h hk]
  · have : (ks.any fun key => k == key) = false := by
      simp only [List.any_eq_false]; intro x hx; simp; rintro rfl; exact hk hx
    simp [this, hk, insertionSort_append_singleton k ks h hk]

theorem erase_spec (ks : List Int) (k : Int) :
    erase ks k = (decide (k ∈ ks), ks.erase k) := by
  unfold erase
  by_cases hk : k ∈ ks
  · have : (ks.any fun key => key == k) = true := by
      simp only [List.any_eq_true]; exact ⟨k, hk, by simp⟩
    simp [this, hk]
  · have : (ks.any fun key => key == k) = false := by
      simp only [List.any_eq_false]; intro x hx; simp; rintro rfl; exact hk hx
    simp [this, hk, List.erase_of_not_mem hk]

theorem pop_max_append (A : List Int) (m : Int) : pop_max (A ++ [m]) = some (m, A) := by
  simp [pop_max]

theorem max_append (A : List Int) (m : Int) : max (A ++ [m]) = some m := by
  simp [max]

end Node
end DualAVLTree

/-! ## The invariant -/

namespace DualAVLTree
namespace Tree

@[simp] theorem height_null : height null = -1 := rfl

@[simp] theorem height_node (ks : List Int) (h : Int) (l r : Tree) :
    height (node ks h l r) = h := rfl

@[simp] theorem keysOf_null : keysOf null = [] := rfl

@[simp] theorem keysOf_node (ks : List Int) (h : Int) (l r : Tree) :
    keysOf (node ks h l r) = keysOf l ++ ks ++ keysOf r := rfl

@[simp] theorem is_leaf_null_null : Node.is_leaf null null = true := rfl

@[simp] theorem is_leaf_node_left (ks : List Int) (h : Int) (l r t : Tree) :
    Node.is_leaf (node ks h l r) t = false := rfl

@[simp] theorem is_leaf_node_right (ks : List Int) (h : Int) (l r t : Tree) :
    Node.is_leaf t (node ks h l r) = false := by
  cases t <;> rfl

theorem Inv.height_ge {t : Tree} (h : Inv t) : -1 ≤ height t := by
  induction t with
  | null => simp
  | node ks hh l r ihl ihr =>
    obtain ⟨h1, h2, -, h4, -⟩ := h
    have := ihl h1
    have := ihr h2
    simp only [height_node]
    omega

theorem Inv.height_nonneg {t : Tree} (h : Inv t) (hn : t ≠ null) : 0 ≤ height t := by
  cases t with
  | null => exact absurd rfl hn
  | node ks hh l r =>
    obtain ⟨h1, h2, -, h4, -⟩ := h
    have := h1.height_ge
    have := h2.height_ge
    simp only [height_node]
    omega

theorem Inv.leaf {ks : List Int} (hks : ks ≠ []) (hlen : ks.length ≤ 3) :
    Inv (node ks 0 null null) := by
  simp [Inv, hks, hlen]

theorem Inv.keysOf_ne_nil {t : Tree} (h : Inv t) (hn : t ≠ null) : keysOf t ≠ [] := by
  cases t with
  | null => exact absurd rfl hn
  | node ks hh l r =>
    obtain ⟨-, -, h3, -⟩ := h
    simp [h3]

theorem Inv.realHeight_eq {t : Tree} (h : Inv t) : realHeight t = height t := by
  induction t with
  | null => rfl
  | node ks hh l r ihl ihr =>
    obtain ⟨h1, h2, -, h4, -⟩ := h
    simp only [realHeight, height_node, ihl h1, ihr h2, h4]

theorem find_min_spec {t : Tree} (h : Inv t) (hn : t ≠ null) :
    ∃ rn rks m tl, find_min t = some rn ∧ keys? rn = some rks ∧ Node.min rks = some m ∧
      keysOf t = m :: tl := by
  induction t with
  | null => exact absurd rfl hn
  | node ks hh l r ihl _ =>
    obtain ⟨h1, -, h3, -⟩ := h
    cases l with
    | null =>
      obtain ⟨a, rest, rfl⟩ := List.exists_cons_of_ne_nil h3
      exact ⟨_, _, a, rest ++ keysOf r, rfl, rfl, rfl, by simp⟩
    | node lks lh ll lr =>
      obtain ⟨rn, rks, m, tl, e1, e2, e3, e4⟩ := ihl h1 (by simp)
      refine ⟨rn, rks, m, tl ++ ks ++ keysOf r, ?_, e2, e3, ?_⟩
      · simpa [find_min] using e1
      · rw [keysOf_node, e4]; simp

theorem find_max_spec {t : Tree} (h : Inv t) (hn : t ≠ null) :
    ∃ rn rks m tl, find_max t = some rn ∧ keys? rn = some rks ∧ Node.max rks = some m ∧
      keysOf t = tl ++ [m] := by
  induction t with
  | null => exact absurd rfl hn
  | node ks hh l r _ ihr =>
    obtain ⟨-, h2, h3, -⟩ := h
    cases r with
    | null =>
      obtain ⟨rest, a, rfl⟩ := (List.eq_nil_or_concat ks).resolve_left h3
      refine ⟨_, _, a, keysOf l ++ rest, rfl, rfl, ?_, by simp⟩
      simp [Node.max]
    | node rks rh rl rr =>
      obtain ⟨rn, rks1, m, tl, e1, e2, e3, e4⟩ := ihr h2 (by simp)
      refine ⟨rn, rks1, m, keysOf l ++ ks ++ tl, ?_, e2, e3, ?_⟩
      · simpa [find_max] using e1
      · rw [keysOf_node, e4]; simp

end Tree
end DualAVLTree

/-! ## Node rotations -/

namespace DualAVLTree
namespace Tree

theorem Inv.children_of_pos {ks : List Int} {h : Int} {l r : Tree} (hI : Inv (node ks h l r))
    (hp : 1 ≤ h) : l ≠ null ∧ r ≠ null ∧ ks.length ≤ 2 := by
  obtain ⟨-, -, -, h4, -, -, h7⟩ := hI
  rcases h7 with ⟨rfl, rfl, -⟩ | h7
  · simp at h4; omega
  · exact h7

theorem balance_nodes_spec (ks : List Int) (h : Int) (l r : Tree) (hl : Inv l) (hr : Inv r)
    (hks : ks ≠ []) (hlen : ks.length ≤ 2) (hln : l ≠ null) (hrn : r ≠ null)
    (hh : h = Max.max (height l) (height r) + 1)
    (hd1 : height r - height l ≤ 2) (hd2 : height l - height r ≤ 2) :
    ∃ t, balance_nodes (node ks h l r) = some t ∧ Inv t ∧
      keysOf t = keysOf l ++ ks ++ keysOf r ∧ t ≠ null ∧
      Max.max (height l) (height r) ≤ height t ∧
      height t ≤ Max.max (height l) (height r) + 1 ∧
      (height r - height l ≤ 1 → height l - height r ≤ 1 →
        height t = Max.max (height l) (height r) + 1) := by
  have hl0 := hl.height_nonneg hln
  have hr0 := hr.height_nonneg hrn
  by_cases c1 : height r - height l = -2
  · cases l with
    | null => exact absurd rfl hln
    | node lks lh ll lr =>
      simp only [height_node] at c1 hd1 hd2 hl0 hh
      obtain ⟨hll, hlr, hlks, hlh, hlb1, hlb2, -⟩ := id hl
      obtain ⟨hlln, hlrn, hllen⟩ := hl.children_of_pos (by omega)
      have hll0 := hll.height_nonneg hlln
      have hlr0 := hlr.height_nonneg hlrn
      by_cases c2 : height ll < height lr
      · cases lr with
        | null => exact absurd rfl hlrn
        | node lrks lrh lrl lrr =>
          simp only [height_node] at c2 hlh hlb1 hlb2 hlr0
          obtain ⟨hlrl, hlrr, hlrks, hlrh, hlrb1, hlrb2, -⟩ := id hlr
          obtain ⟨hlrln, hlrrn, hlrlen⟩ := hlr.children_of_pos (by omega)
          have := hlrl.height_nonneg hlrln
          have := hlrr.height_nonneg hlrrn
          refine ⟨node lrks (Max.max (Max.max (height ll) (height lrl) + 1)
              (Max.max (height lrr) (height r) + 1) + 1)
              (node lks (Max.max (height ll) (height lrl) + 1) ll lrl)
              (node ks (Max.max (height lrr) (height r) + 1) lrr r), ?_, ?_, ?_, ?_, ?_, ?_, ?_⟩
          · simp [balance_nodes, c1, c2, left_node_rotate, right_node_rotate, update_height]
          · simp only [Inv, height_node]
            refine ⟨⟨hll, hlrl, hlks, trivial, by omega, by omega, Or.inr ⟨hlln, hlrln, hllen⟩⟩,
              ⟨hlrr, hr, hks, trivial, by omega, by omega, Or.inr ⟨hlrrn, hrn, hlen⟩⟩,
              hlrks, trivial, by omega, by omega, Or.inr ⟨by simp, by simp, hlrlen⟩⟩
          · simp
          · simp
          · simp only [height_node]; omega
          · simp only [height_node]; omega
          · simp only [height_node]; intro _ _; omega
      · refine ⟨node lks (Max.max (height ll) (Max.max (height lr) (height r) + 1) + 1) ll
            (node ks (Max.max (height lr) (height r) + 1) lr r), ?_, ?_, ?_, ?_, ?_, ?_, ?_⟩
        · simp [balance_nodes, c1, c2, right_node_rotate, update_height]
        · simp only [Inv, height_node]
          refine ⟨hll, ⟨hlr, hr, hks, trivial, by omega, by omega, Or.inr ⟨hlrn, hrn, hlen⟩⟩,
            hlks, trivial, by omega, by omega, Or.inr ⟨hlln, by simp, hllen⟩⟩
        · simp
        · simp
        · simp only [height_node]; omega
        · simp only [height_node]; omega
        · simp only [height_node]; intro _ _; omega
  · by_cases c3 : height r - height l = 2
    · cases r with
      | null => exact absurd rfl hrn
      | node rks rh rl rr =>
        simp only [height_node] at c1 c3 hd1 hd2 hr0 hh
        obtain ⟨hrl, hrr, hrks, hrh, hrb1, hrb2, -⟩ := id hr
        obtain ⟨hrln, hrrn, hrlen⟩ := hr.children_of_pos (by omega)
        have hrl0 := hrl.height_nonneg hrln
        have hrr0 := hrr.height_nonneg hrrn
        by_cases c2 : height rl > height rr
        · cases rl with
          | null => exact absurd rfl hrln
          | node rlks rlh rll rlr =>
            simp only [height_node] at c2 hrh hrb1 hrb2 hrl0
            obtain ⟨hrll, hrlr, hrlks, hrlh, hrlb1, hrlb2, -⟩ := id hrl
            obtain ⟨hrlln, hrlrn, hrllen⟩ := hrl.children_of_pos (by omega)
            have := hrll.height_nonneg hrlln
            have := hrlr.height_nonneg hrlrn
            refine ⟨node rlks (Max.max (Max.max (height l) (height rll) + 1)
                (Max.max (height rlr) (height rr) + 1) + 1)
                (node ks (Max.max (height l) (height rll) + 1) l rll)
                (node rks (Max.max (height rlr) (height rr) + 1) rlr rr),
                ?_, ?_, ?_, ?_, ?_, ?_, ?_⟩
            · simp [balance_nodes, c1, c3, c2, left_node_rotate, right_node_rotate,
                update_height]
            · simp only [Inv, height_node]
              refine ⟨⟨hl, hrll, hks, trivial, by omega, by omega, Or.inr ⟨hln, hrlln, hlen⟩⟩,
                ⟨hrlr, hrr, hrks, trivial, by omega, by omega, Or.inr ⟨hrlrn, hrrn, hrlen⟩⟩,
                hrlks, trivial, by omega, by omega, Or.inr ⟨by simp, by simp, hrllen⟩⟩
            · simp
            · simp
            · simp only [height_node]; omega
            · simp only [height_node]; omega
            · simp only [height_node]; intro _ _; omega
        · refine ⟨node rks (Max.max (Max.max (height l) (height rl) + 1) (height rr) + 1)
              (node ks (Max.max (height l) (height rl) + 1) l rl) rr, ?_, ?_, ?_, ?_, ?_, ?_, ?_⟩
          · simp [balance_nodes, c1, c3, c2, left_node_rotate, update_height]
          · simp only [Inv, height_node]
            refine ⟨⟨hl, hrl, hks, trivial, by omega, by omega, Or.inr ⟨hln, hrln, hlen⟩⟩, hrr,
              hrks, trivial, by omega, by omega, Or.inr ⟨by simp, hrrn, hrlen⟩⟩
          · simp
          · simp
          · simp only [height_node]; omega
          · simp only [height_node]; omega
          · simp only [height_node]; intro _ _; omega
    · refine ⟨node ks h l r, ?_, ?_, rfl, by simp, ?_, ?_, ?_⟩
      · simp [balance_nodes, c1, c3]
      · exact ⟨hl, hr, hks, hh, by omega, by omega, Or.inr ⟨hln, hrn, hlen⟩⟩
      · simp only [height_node]; omega
      · simp only [height_node]; omega
      · intro _ _; simp only [height_node]; omega

end Tree
end DualAVLTree

/-! ## Rebalancing -/

namespace DualAVLTree
namespace Tree

theorem balance_leaf (ins rem : Int → Tree → Option Tree) (ks : List Int) (h : Int) :
    balance ins rem (node ks h null null) = some (node ks 0 null null) := by
  simp [balance, update_height, balance_keys, balance_nodes]

theorem balance_two (ins rem : Int → Tree → Option Tree) (ks : List Int) (h : Int)
    {l r : Tree} (hln : l ≠ null) (hrn : r ≠ null) :
    balance ins rem (node ks h l r)
      = balance_nodes (node ks (Max.max (height l) (height r) + 1) l r) := by
  cases l with
  | null => exact absurd rfl hln
  | node lks lh ll lr =>
    cases r with
    | null => exact absurd rfl hrn
    | node rks rh rl rr =>
      simp [balance, update_height, balance_keys]

theorem balance_two_spec (ins rem : Int → Tree → Option Tree) (ks : List Int) (h : Int)
    (l r : Tree) (hl : Inv l) (hr : Inv r)
    (hks : ks ≠ []) (hlen : ks.length ≤ 2) (hln : l ≠ null) (hrn : r ≠ null)
    (hd1 : height r - height l ≤ 2) (hd2 : height l - height r ≤ 2) :
    ∃ t, balance ins rem (node ks h l r) = some t ∧ Inv t ∧
      keysOf t = keysOf l ++ ks ++ keysOf r ∧ t ≠ null ∧
      Max.max (height l) (height r) ≤ height t ∧
      height t ≤ Max.max (height l) (height r) + 1 ∧
      (height r - height l ≤ 1 → height l - height r ≤ 1 →
        height t = Max.max (height l) (height r) + 1) := by
  rw [balance_two ins rem ks h hln hrn]
  exact balance_nodes_spec ks _ l r hl hr hks hlen hln hrn rfl hd1 hd2

theorem balance_left_core (ins rem : Int → Tree → Option Tree) (ks : List Int) (h : Int)
    (r : Tree) (hrn : r ≠ null) (hr0 : 0 ≤ height r) (hks : ks ≠ []) (hlen : ks.length ≤ 2)
    (hs : (ks ++ keysOf r).Sorted (· < ·)) (hh1 : height r ≤ 1)
    (hins : ∀ m, ins m null = some (node [m] 0 null null))
    (hfm : ∃ rn rks m tl, find_min r = some rn ∧ keys? rn = some rks ∧
      Node.min rks = some m ∧ keysOf r = m :: tl ∧ ∃ r1, rem m r = some r1 ∧ RemPost r m r1) :
    ∃ t, balance ins rem (node ks h null r) = some t ∧ Inv t ∧
      keysOf t = ks ++ keysOf r ∧ t ≠ null ∧
      height r ≤ height t ∧ height t ≤ height r + 1 := by
  obtain ⟨rn, rks, m, tl, e1, e2, e3, e4, r1, e5, hr1, hk1, hh2, hh3⟩ := hfm
  rw [e4] at hs hk1
  simp only [List.erase_cons_head] at hk1
  have hsk : ks.Sorted (· < ·) := (List.pairwise_append.1 hs).1
  have hlt : ∀ a ∈ ks, a < m := fun a ha => (List.pairwise_append.1 hs).2.2 a ha m (by simp)
  have hpush : (Node.push ks m).2 = ks ++ [m] := by
    rw [Node.push_spec ks m hsk]; exact insertKey_eq_append m ks hlt
  have hnl : Node.is_leaf null r = false := by
    cases r with
    | null => exact absurd rfl hrn
    | node _ _ _ _ => rfl
  by_cases c : r1 = null
  · subst c
    simp only [keysOf_null] at hk1
    simp only [height_null] at hh3
    refine ⟨node (ks ++ [m]) 0 null null, ?_, Inv.leaf (by simp) (by simp; omega), ?_,
      by simp, ?_, ?_⟩
    · simp [balance, update_height, balance_keys, hnl, left_key_rotate, e1, e2, e3, e5, hpush,
        balance_nodes]
    · simp [e4, ← hk1]
    · simp only [height_node]; omega
    · simp only [height_node]; omega
  · have hr10 := hr1.height_nonneg c
    obtain ⟨a, rest, rfl⟩ := List.exists_cons_of_ne_nil hks
    have hnl1 : Node.is_leaf null r1 = false := by
      cases r1 with
      | null => exact absurd rfl c
      | node _ _ _ _ => rfl
    have hd : ¬ (height r1 = -2) := by omega
    have hd2 : ¬ (height r1 = 2) := by omega
    refine ⟨node (rest ++ [m]) (Max.max 0 (height r1) + 1) (node [a] 0 null null) r1, ?_, ?_,
      ?_, by simp, ?_, ?_⟩
    · simp [balance, update_height, balance_keys, hnl, left_key_rotate, e1, e2, e3, e5, hpush,
        hnl1, Node.pop_min, hins, balance_nodes, hd, hd2]
    · refine ⟨Inv.leaf (by simp) (by simp), hr1, by simp, rfl, ?_, ?_, Or.inr ⟨by simp, c, ?_⟩⟩
      · simp only [height_node]; omega
      · simp only [height_node]; omega
      · simp at hlen ⊢; omega
    · simp [e4, hk1]
    · simp only [height_node]; omega
    · simp only [height_node]; omega

theorem balance_left_rotate (ins rem : Int → Tree → Option Tree) (ks : List Int) (h : Int)
    (r : Tree) (hr : Inv r) (hrn : r ≠ null) (hks : ks ≠ []) (hlen : ks.length ≤ 2)
    (hs : (ks ++ keysOf r).Sorted (· < ·)) (hh1 : height r ≤ 1)
    (hins : ∀ m, ins m null = some (node [m] 0 null null))
    (hrem : ∀ m, ∃ r1, rem m r = some r1 ∧ RemPost r m r1) :
    ∃ t, balance ins rem (node ks h null r) = some t ∧ Inv t ∧
      keysOf t = ks ++ keysOf r ∧ t ≠ null ∧
      height r ≤ height t ∧ height t ≤ height r + 1 := by
  obtain ⟨rn, rks, m, tl, e1, e2, e3, e4⟩ := find_min_spec hr hrn
  exact balance_left_core ins rem ks h r hrn (hr.height_nonneg hrn) hks hlen hs hh1 hins
    ⟨rn, rks, m, tl, e1, e2, e3, e4, hrem m⟩

theorem balance_right_core (ins rem : Int → Tree → Option Tree) (ks : List Int) (h : Int)
    (l : Tree) (hln : l ≠ null) (hl0 : 0 ≤ height l) (hks : ks ≠ []) (hlen : ks.length ≤ 2)
    (hs : (keysOf l ++ ks).Sorted (· < ·)) (hh1 : height l ≤ 1)
    (hins : ∀ m, ins m null = some (node [m] 0 null null))
    (hfm : ∃ ln lks m tl, find_max l = some ln ∧ keys? ln = some lks ∧
      Node.max lks = some m ∧ keysOf l = tl ++ [m] ∧ ∃ l1, rem m l = some l1 ∧ RemPost l m l1) :
    ∃ t, balance ins rem (node ks h l null) = some t ∧ Inv t ∧
      keysOf t = keysOf l ++ ks ∧ t ≠ null ∧
      height l ≤ height t ∧ height t ≤ height l + 1 := by
  obtain ⟨ln, lks, m, tl, e1, e2, e3, e4, l1, e5, hl1, hk1, hh2, hh3⟩ := hfm
  rw [e4] at hs hk1
  have hsl : (tl ++ [m]).Sorted (· < ·) := (List.pairwise_append.1 hs).1
  have hmtl : m ∉ tl := by
    intro hm
    have := (List.pairwise_append.1 hsl).2.2 m hm m (by simp)
    omega
  rw [List.erase_append_right _ hmtl] at hk1
  simp only [List.erase_cons_head, List.append_nil] at hk1
  have hsk : ks.Sorted (· < ·) := (List.pairwise_append.1 hs).2.1
  have hlt : ∀ a ∈ ks, m < a := fun a ha => (List.pairwise_append.1 hs).2.2 m (by simp) a ha
  have hpush : (Node.push ks m).2 = m :: ks := by
    rw [Node.push_spec ks m hsk]; exact insertKey_eq_cons m ks hlt
  have hnl : Node.is_leaf l null = false := by
    cases l with
    | null => exact absurd rfl hln
    | node _ _ _ _ => rfl
  by_cases c : l1 = null
  · subst c
    simp only [keysOf_null] at hk1
    simp only [height_null] at hh3
    refine ⟨node (m :: ks) 0 null null, ?_, Inv.leaf (by simp) (by simp; omega), ?_,
      by simp, ?_, ?_⟩
    · simp [balance, update_height, balance_keys, hnl, hln, right_key_rotate, e1, e2, e3, e5,
        hpush, balance_nodes]
    · simp [e4, ← hk1]
    · simp only [height_node]; omega
    · simp only [height_node]; omega
  · have hl10 := hl1.height_nonneg c
    obtain ⟨rest, a, rfl⟩ : ∃ rest a, ks = rest ++ [a] :=
      ⟨ks.dropLast, ks.getLast hks, (List.dropLast_append_getLast hks).symm⟩
    have hnl1 : Node.is_leaf l1 null = false := by
      cases l1 with
      | null => exact absurd rfl c
      | node _ _ _ _ => rfl
    have hd : ¬ (height l1 = -2) := by omega
    have hd2 : ¬ (height l1 = 2) := by omega
    have hpop : Node.pop_max (m :: (rest ++ [a])) = some (a, m :: rest) := by
      have := Node.pop_max_append (m :: rest) a
      simpa using this
    refine ⟨node (m :: rest) (Max.max (height l1) 0 + 1) l1 (node [a] 0 null null), ?_, ?_,
      ?_, by simp, ?_, ?_⟩
    · simp [balance, update_height, balance_keys, hnl, hln, right_key_rotate, e1, e2, e3, e5,
        hpush, hnl1, hpop, hins, balance_nodes, hd, hd2]
      intro hc; omega
    · refine ⟨hl1, Inv.leaf (by simp) (by simp), by simp, rfl, ?_, ?_, Or.inr ⟨c, by simp, ?_⟩⟩
      · simp only [height_node]; omega
      · simp only [height_node]; omega
      · simp at hlen ⊢; omega
    · simp [e4, hk1]
    · simp only [height_node]; omega
    · simp only [height_node]; omega

theorem balance_right_rotate (ins rem : Int → Tree → Option Tree) (ks : List Int) (h : Int)
    (l : Tree) (hl : Inv l) (hln : l ≠ null) (hks : ks ≠ []) (hlen : ks.length ≤ 2)
    (hs : (keysOf l ++ ks).Sorted (· < ·)) (hh1 : height l ≤ 1)
    (hins : ∀ m, ins m null = some (node [m] 0 null null))
    (hrem : ∀ m, ∃ l1, rem m l = some l1 ∧ RemPost l m l1) :
    ∃ t, balance ins rem (node ks h l null) = some t ∧ Inv t ∧
      keysOf t = keysOf l ++ ks ∧ t ≠ null ∧
      height l ≤ height t ∧ height t ≤ height l + 1 := by
  obtain ⟨ln, lks, m, tl, e1, e2, e3, e4⟩ := find_max_spec hl hln
  exact balance_right_core ins rem ks h l hln (hl.height_nonneg hln) hks hlen hs hh1 hins
    ⟨ln, lks, m, tl, e1, e2, e3, e4, hrem m⟩

end Tree
end DualAVLTree

/-! ## Insertion -/

namespace DualAVLTree
namespace Tree

theorem sorted_parts {L ks R : List Int} (h : (L ++ ks ++ R).Sorted (· < ·)) :
    L.Sorted (· < ·) ∧ ks.Sorted (· < ·) ∧ R.Sorted (· < ·) ∧
    (∀ x ∈ L, ∀ y ∈ ks, x < y) ∧ (∀ y ∈ ks, ∀ z ∈ R, y < z) ∧ (∀ x ∈ L, ∀ z ∈ R, x < z) := by
  have h1 := List.pairwise_append.1 h
  have h2 := List.pairwise_append.1 h1.1
  refine ⟨h2.1, h2.2.1, h1.2.1, h2.2.2, ?_, ?_⟩
  · intro y hy z hz; exact h1.2.2 y (by simp [hy]) z hz
  · intro x hx z hz; exact h1.2.2 x (by simp [hx]) z hz

theorem min_max_spec {ks : List Int} (hks : ks ≠ []) (hs : ks.Sorted (· < ·)) :
    ∃ a b, Node.min ks = some a ∧ Node.max ks = some b ∧ a ∈ ks ∧ b ∈ ks ∧
      (∀ y ∈ ks, a ≤ y) ∧ (∀ y ∈ ks, y ≤ b) := by
  obtain ⟨a, rest, rfl⟩ := List.exists_cons_of_ne_nil hks
  obtain ⟨init, b, hb⟩ : ∃ init b, a :: rest = init ++ [b] :=
    ⟨(a :: rest).dropLast, (a :: rest).getLast hks, (List.dropLast_append_getLast hks).symm⟩
  refine ⟨a, b, rfl, by rw [hb]; simp [Node.max], by simp, by rw [hb]; simp, ?_, ?_⟩
  · intro y hy
    rcases List.mem_cons.1 hy with rfl | hy
    · exact le_refl _
    · exact le_of_lt ((List.sorted_cons.1 hs).1 y hy)
  · rw [hb] at hs ⊢
    intro y hy
    rcases List.mem_append.1 hy with hy | hy
    · exact le_of_lt ((List.pairwise_append.1 hs).2.2 y hy b (by simp))
    · simp at hy; omega

theorem is_leaf_false_left {l : Tree} (r : Tree) (hl : l ≠ null) : Node.is_leaf l r = false := by
  cases l with
  | null => exact absurd rfl hl
  | node _ _ _ _ => rfl

theorem insert_body_spec (ins rem : Int → Tree → Option Tree) (k : Int)
    (ks : List Int) (h : Int) (l r : Tree) (hI : Inv (node ks h l r))
    (hS : (keysOf (node ks h l r)).Sorted (· < ·))
    (hl : ∀ m, ∃ l1, ins m l = some l1 ∧ InsPost l m l1)
    (hr : ∀ m, ∃ r1, ins m r = some r1 ∧ InsPost r m r1) :
    ∃ t, insert_body ins rem k (node ks h l r) = some t ∧ InsPost (node ks h l r) k t := by
  obtain ⟨hIl, hIr, hks, hh, hb1, hb2, hshape⟩ := id hI
  simp only [keysOf_node] at hS
  obtain ⟨hsL, hsk, hsR, hLk, hkR, hLR⟩ := sorted_parts hS
  have hpush := Node.push_spec ks k hsk
  rcases hshape with ⟨rfl, rfl, hlen⟩ | ⟨hln, hrn, hlen⟩
  · -- a leaf
    simp only [height_null] at hh
    simp only [keysOf_null, List.nil_append, List.append_nil] at hS
    by_cases c : k ∉ ks ∧ (insertKey k ks).length > 3
    · -- the leaf splits
      have hlen1 : (insertKey k ks).length = 4 := by
        have := length_insertKey_of_not_mem k ks c.1
        omega
      obtain ⟨w, x, y, z, hk1⟩ : ∃ w x y z, insertKey k ks = [w, x, y, z] := by
        match hm : insertKey k ks, hlen1 with
        | [w, x, y, z], _ => exact ⟨w, x, y, z, rfl⟩
      obtain ⟨l1, el, hl1, hkl, hl1n, hl1a, hl1b⟩ := hl w
      obtain ⟨r1, er, hr1, hkr, hr1n, hr1a, hr1b⟩ := hr z
      have := hl1.height_nonneg hl1n
      have := hr1.height_nonneg hr1n
      simp only [height_null] at hl1a hl1b hr1a hr1b
      obtain ⟨t, e, ht, hkt, htn, hta, htb, htc⟩ :=
        balance_two_spec ins rem [x, y] h l1 r1 hl1 hr1 (by simp) (by simp) hl1n hr1n
          (by omega) (by omega)
      refine ⟨t, ?_, ht, ?_, htn, ?_, ?_⟩
      · simp [insert_body, hpush, c.1, hk1, Node.size, MAX_LEAF_KEYS, Node.pop_min,
          Node.pop_max, el, er, e]
      · rw [hkt, hkl, hkr]
        simp [insertKey, hk1]
      · simp only [height_node]; omega
      · simp only [height_node]; omega
    · -- the key is added to the leaf, or is already there
      have hlen1 : (insertKey k ks).length ≤ 3 := by
        by_cases hk : k ∈ ks
        · rw [insertKey_of_mem k ks hsk hk]; exact hlen
        · have := length_insertKey_of_not_mem k ks hk
          by_contra hc
          exact c ⟨hk, by omega⟩
      have hne : insertKey k ks ≠ [] := by
        intro hc
        have := (mem_insertKey k k ks).2 (Or.inl rfl)
        rw [hc] at this; simp at this
      have hcond : (decide (k ∉ ks) && decide ((insertKey k ks).length > 3)) = false := by
        by_cases hk : k ∈ ks
        · simp [hk]
        · have : ¬ (insertKey k ks).length > 3 := fun hc => c ⟨hk, hc⟩
          simp [this]
      refine ⟨node (insertKey k ks) 0 null null, ?_, Inv.leaf hne hlen1, by simp, by simp, ?_, ?_⟩
      · simp only [insert_body, is_leaf_null_null, if_true, hpush, Node.size, MAX_LEAF_KEYS,
          hcond, Bool.false_eq_true, if_false, balance_leaf]
      · simp only [height_node]; omega
      · simp only [height_node]; omega
  · -- an internal node
    have hnl : Node.is_leaf l r = false := is_leaf_false_left r hln
    obtain ⟨a, b, ea, eb, hak, hbk, hmin, hmax⟩ := min_max_spec hks hsk
    have hl0 := hIl.height_nonneg hln
    have hr0 := hIr.height_nonneg hrn
    by_cases c1 : k < a
    · obtain ⟨l1, el, hl1, hkl, hl1n, hl1a, hl1b⟩ := hl k
      obtain ⟨t, e, ht, hkt, htn, hta, htb, htc⟩ :=
        balance_two_spec ins rem ks h l1 r hl1 hIr hks hlen hl1n hrn (by omega) (by omega)
      refine ⟨t, ?_, ht, ?_, htn, ?_, ?_⟩
      · simp [insert_body, hnl, ea, c1, el, e]
      · rw [hkt, hkl, keysOf_node, List.append_assoc, List.append_assoc]
        refine (insertKey_append_left k _ _ ?_).symm
        intro y hy
        rcases List.mem_append.1 hy with hy | hy
        · have := hmin y hy; omega
        · have := hkR a hak y hy; omega
      · simp only [height_node]; omega
      · simp only [height_node]; omega
    · by_cases c2 : k > b
      · obtain ⟨r1, er, hr1, hkr, hr1n, hr1a, hr1b⟩ := hr k
        obtain ⟨t, e, ht, hkt, htn, hta, htb, htc⟩ :=
          balance_two_spec ins rem ks h l r1 hIl hr1 hks hlen hln hr1n (by omega) (by omega)
        refine ⟨t, ?_, ht, ?_, htn, ?_, ?_⟩
        · simp [insert_body, hnl, ea, c1, eb, c2, er, e]
        · rw [hkt, hkr, keysOf_node]
          refine (insertKey_append_right k _ _ ?_).symm
          intro y hy
          rcases List.mem_append.1 hy with hy | hy
          · have := hLk y hy b hbk; omega
          · have := hmax y hy; omega
        · simp only [height_node]; omega
        · simp only [height_node]; omega
      · -- the key lies in the span of the node
        have hLlt : ∀ x ∈ keysOf l, x < k := fun x hx => by
          have := hLk x hx a hak; omega
        have hRgt : ∀ z ∈ keysOf r, k < z := fun z hz => by
          have := hkR b hbk z hz; omega
        have hkeys : insertKey k (keysOf (node ks h l r))
            = keysOf l ++ insertKey k ks ++ keysOf r := by
          rw [keysOf_node, List.append_assoc, insertKey_append_right k _ _ hLlt,
            insertKey_append_left k _ _ hRgt, List.append_assoc]
        by_cases c : k ∉ ks ∧ (insertKey k ks).length > 2
        · have hlen1 : (insertKey k ks).length = 3 := by
            have := length_insertKey_of_not_mem k ks c.1
            omega
          obtain ⟨x, y, z, hk1⟩ : ∃ x y z, insertKey k ks = [x, y, z] := by
            match hm : insertKey k ks, hlen1 with
            | [x, y, z], _ => exact ⟨x, y, z, rfl⟩
          have hmem : ∀ v ∈ [x, y, z], v = k ∨ v ∈ ks := fun v hv => by
            rw [← hk1] at hv; exact (mem_insertKey k v ks).1 hv
          by_cases c3 : height l ≤ height r
          · obtain ⟨l1, el, hl1, hkl, hl1n, hl1a, hl1b⟩ := hl x
            obtain ⟨t, e, ht, hkt, htn, hta, htb, htc⟩ :=
              balance_two_spec ins rem [y, z] h l1 r hl1 hIr (by simp) (by simp) hl1n hrn
                (by omega) (by omega)
            refine ⟨t, ?_, ht, ?_, htn, ?_, ?_⟩
            · simp [insert_body, hnl, ea, c1, eb, c2, hpush, c.1, hk1, Node.size,
                MAX_INTERNAL_NODE_KEYS, c3, Node.pop_min, el, e]
            · rw [hkt, hkl, hkeys, hk1, insertKey_eq_append x _ ?_]
              · simp
              · intro v hv
                rcases hmem x (by simp) with rfl | hx
                · exact hLlt v hv
                · exact hLk v hv x hx
            · simp only [height_node]; omega
            · simp only [height_node]; omega
          · obtain ⟨r1, er, hr1, hkr, hr1n, hr1a, hr1b⟩ := hr z
            obtain ⟨t, e, ht, hkt, htn, hta, htb, htc⟩ :=
              balance_two_spec ins rem [x, y] h l r1 hIl hr1 (by simp) (by simp) hln hr1n
                (by omega) (by omega)
            refine ⟨t, ?_, ht, ?_, htn, ?_, ?_⟩
            · simp [insert_body, hnl, ea, c1, eb, c2, hpush, c.1, hk1, Node.size,
                MAX_INTERNAL_NODE_KEYS, c3, Node.pop_max, er, e]
            · rw [hkt, hkr, hkeys, hk1, insertKey_eq_cons z _ ?_]
              · simp
              · intro v hv
                rcases hmem z (by simp) with rfl | hz
                · exact hRgt v hv
                · exact hkR z hz v hv
            · simp only [height_node]; omega
            · simp only [height_node]; omega
        · -- no overflow: the key is already in the node
          have hk : k ∈ ks := by
            by_contra hk
            have h1 := length_insertKey_of_not_mem k ks hk
            have h2 : ks.length ≤ 1 := by
              by_contra hc
              exact c ⟨hk, by omega⟩
            match ks, hks, h2 with
            | [v], _, _ =>
              simp only [List.mem_singleton] at hak hbk hk
              omega
          obtain ⟨t, e, ht, hkt, htn, hta, htb, htc⟩ :=
            balance_two_spec ins rem ks h l r hIl hIr hks hlen hln hrn (by omega) (by omega)
          refine ⟨t, ?_, ht, ?_, htn, ?_, ?_⟩
          · simp [insert_body, hnl, ea, c1, eb, c2, hpush, hk, insertKey_of_mem k ks hsk hk, e]
          · rw [hkt, hkeys, insertKey_of_mem k ks hsk hk]
          · simp only [height_node]; omega
          · simp only [height_node]; omega

end Tree
end DualAVLTree

/-! ## Removal -/

namespace DualAVLTree
namespace Tree

theorem ne_null_of_height_nonneg {t : Tree} (h : 0 ≤ height t) : t ≠ null := by
  rintro rfl
  simp at h

theorem balance_spec (ins rem : Int → Tree → Option Tree) (ks : List Int) (h : Int)
    (l r : Tree) (hl : Inv l) (hr : Inv r) (hks : ks ≠ []) (hlen : ks.length ≤ 2)
    (hnn : l ≠ null ∨ r ≠ null) (hs : (keysOf l ++ ks ++ keysOf r).Sorted (· < ·))
    (hd1 : height r - height l ≤ 2) (hd2 : height l - height r ≤ 2)
    (hins : ∀ m, ins m null = some (node [m] 0 null null))
    (hreml : r = null → ∀ m, ∃ l1, rem m l = some l1 ∧ RemPost l m l1)
    (hremr : l = null → ∀ m, ∃ r1, rem m r = some r1 ∧ RemPost r m r1) :
    ∃ t, balance ins rem (node ks h l r) = some t ∧ Inv t ∧
      keysOf t = keysOf l ++ ks ++ keysOf r ∧ t ≠ null ∧
      Max.max (height l) (height r) ≤ height t ∧
      height t ≤ Max.max (height l) (height r) + 1 ∧
      (0 ≤ height l → 0 ≤ height r → height r - height l ≤ 1 → height l - height r ≤ 1 →
        height t = Max.max (height l) (height r) + 1) := by
  by_cases cl : l = null
  · subst cl
    have hrn : r ≠ null := hnn.resolve_left (fun hc => hc rfl)
    simp only [height_null] at hd1 hd2 ⊢
    simp only [keysOf_null, List.nil_append] at hs ⊢
    have hr0 := hr.height_nonneg hrn
    obtain ⟨t, e, ht, hkt, htn, hta, htb⟩ :=
      balance_left_rotate ins rem ks h r hr hrn hks hlen hs (by omega) hins (hremr rfl)
    exact ⟨t, e, ht, hkt, htn, by omega, by omega, by intro hc; omega⟩
  · by_cases cr : r = null
    · subst cr
      simp only [height_null] at hd1 hd2 ⊢
      simp only [keysOf_null, List.append_nil] at hs ⊢
      have hl0 := hl.height_nonneg cl
      obtain ⟨t, e, ht, hkt, htn, hta, htb⟩ :=
        balance_right_rotate ins rem ks h l hl cl hks hlen hs (by omega) hins (hreml rfl)
      exact ⟨t, e, ht, hkt, htn, by omega, by omega, by intro _ hc; omega⟩
    · obtain ⟨t, e, ht, hkt, htn, hta, htb, htc⟩ :=
        balance_two_spec ins rem ks h l r hl hr hks hlen cl cr hd1 hd2
      exact ⟨t, e, ht, hkt, htn, hta, htb, fun _ _ h1 h2 => htc h1 h2⟩

theorem sorted_erase {L : List Int} (h : L.Sorted (· < ·)) (k : Int) :
    (L.erase k).Sorted (· < ·) :=
  List.Pairwise.sublist (List.erase_sublist k L) h

theorem erase_append_of_not_mem_right {A B : List Int} {k : Int} (h : k ∉ B) :
    (A ++ B).erase k = A.erase k ++ B := by
  by_cases hA : k ∈ A
  · exact List.erase_append_left B hA
  · rw [List.erase_append_right B hA, List.erase_of_not_mem hA, List.erase_of_not_mem h]

theorem remove_body_spec (ins rem : Int → Tree → Option Tree) (k : Int)
    (ks : List Int) (h : Int) (l r : Tree) (hI : Inv (node ks h l r))
    (hS : (keysOf (node ks h l r)).Sorted (· < ·))
    (hins : ∀ m, ins m null = some (node [m] 0 null null))
    (hl : ∀ m, ∃ l1, rem m l = some l1 ∧ RemPost l m l1)
    (hr : ∀ m, ∃ r1, rem m r = some r1 ∧ RemPost r m r1) :
    ∃ t, remove_body ins rem k (node ks h l r) = some t ∧ RemPost (node ks h l r) k t := by
  obtain ⟨hIl, hIr, hks, hh, hb1, hb2, hshape⟩ := id hI
  have hSe := sorted_erase hS k
  simp only [keysOf_node] at hS
  obtain ⟨hsL, hsk, hsR, hLk, hkR, hLR⟩ := sorted_parts hS
  have herase := Node.erase_spec ks k
  rcases hshape with ⟨rfl, rfl, hlen⟩ | ⟨hln, hrn, hlen⟩
  · -- a leaf
    simp only [height_null] at hh
    by_cases c : k ∈ ks ∧ (ks.erase k).length = 0
    · refine ⟨null, ?_, trivial, ?_, ?_, ?_⟩
      · simp [remove_body, herase, c.1, Node.size, c.2]
      · simpa using List.length_eq_zero.1 c.2
      · simp only [height_node, height_null]; omega
      · simp only [height_node, height_null]; omega
    · have hne : ks.erase k ≠ [] := by
        by_cases hk : k ∈ ks
        · intro hc; exact c ⟨hk, by simp [hc]⟩
        · rw [List.erase_of_not_mem hk]; exact hks
      have hlen1 : (ks.erase k).length ≤ 3 :=
        le_trans (List.Sublist.length_le (List.erase_sublist k ks)) hlen
      have hcond : (decide (k ∈ ks) && decide ((ks.erase k).length = 0)) = false := by
        by_cases hk : k ∈ ks
        · have : ¬ (ks.erase k).length = 0 := fun hc => c ⟨hk, hc⟩
          simp [this]
        · simp [hk]
      refine ⟨node (ks.erase k) 0 null null, ?_, Inv.leaf hne hlen1, by simp, ?_, ?_⟩
      · simp only [remove_body, is_leaf_null_null, if_true, herase, Node.size,
          hcond, Bool.false_eq_true, if_false, balance_leaf]
      · simp only [height_node]; omega
      · simp only [height_node]; omega
  · -- an internal node
    have hnl : Node.is_leaf l r = false := is_leaf_false_left r hln
    obtain ⟨a, b, ea, eb, hak, hbk, hmin, hmax⟩ := min_max_spec hks hsk
    have hl0 := hIl.height_nonneg hln
    have hr0 := hIr.height_nonneg hrn
    have hab : a ≤ b := hmin b hbk
    have hkL : a ≤ k → k ∉ keysOf l := fun hak1 hc => by
      have := hLk k hc a hak; omega
    have hkR1 : k ≤ b → k ∉ keysOf r := fun hbk1 hc => by
      have := hkR b hbk k hc; omega
    by_cases c1 : k < a
    · obtain ⟨l1, el, hl1, hkl, hl1a, hl1b⟩ := hl k
      have hkeys : (keysOf (node ks h l r)).erase k = keysOf l1 ++ ks ++ keysOf r := by
        rw [keysOf_node, hkl, List.append_assoc, List.append_assoc]
        refine erase_append_of_not_mem_right ?_
        intro hc
        rcases List.mem_append.1 hc with hc | hc
        · have := hmin k hc; omega
        · exact hkR1 (by omega) hc
      rw [hkeys] at hSe
      have := hl1.height_ge
      obtain ⟨t, e, ht, hkt, htn, hta, htb, htc⟩ :=
        balance_spec ins rem ks h l1 r hl1 hIr hks hlen (Or.inr hrn) hSe (by omega) (by omega)
          hins (fun hc => absurd hc hrn) (fun _ => hr)
      refine ⟨t, ?_, ht, by rw [hkt, hkeys], ?_, ?_⟩
      · simp [remove_body, hnl, ea, c1, el, e]
      · simp only [height_node]; omega
      · simp only [height_node]; omega
    · by_cases c2 : k > b
      · obtain ⟨r1, er, hr1, hkr, hr1a, hr1b⟩ := hr k
        have hkeys : (keysOf (node ks h l r)).erase k = keysOf l ++ ks ++ keysOf r1 := by
          rw [keysOf_node, hkr]
          refine List.erase_append_right _ ?_
          intro hc
          rcases List.mem_append.1 hc with hc | hc
          · exact hkL (by omega) hc
          · have := hmax k hc; omega
        rw [hkeys] at hSe
        have := hr1.height_ge
        obtain ⟨t, e, ht, hkt, htn, hta, htb, htc⟩ :=
          balance_spec ins rem ks h l r1 hIl hr1 hks hlen (Or.inl hln) hSe (by omega) (by omega)
            hins (fun _ => hl) (fun hc => absurd hc hln)
        refine ⟨t, ?_, ht, by rw [hkt, hkeys], ?_, ?_⟩
        · simp [remove_body, hnl, ea, c1, eb, c2, er, e]
        · simp only [height_node]; omega
        · simp only [height_node]; omega
      · by_cases hk : k ∈ ks
        · -- the key is in this node: a replacement is borrowed from a child
          have hkeys0 : (keysOf (node ks h l r)).erase k
              = keysOf l ++ ks.erase k ++ keysOf r := by
            rw [keysOf_node, List.append_assoc, List.erase_append_right _ (hkL (by omega)),
              List.erase_append_left _ hk, List.append_assoc]
          have hske := sorted_erase hsk k
          have hlene : (ks.erase k).length + 1 = ks.length := by
            rw [List.length_erase_of_mem hk]
            have := List.length_pos_of_mem hk
            omega
          have hsub : ∀ y ∈ ks.erase k, y ∈ ks := fun y hy => List.mem_of_mem_erase hy
          by_cases c3 : height l ≤ height r
          · obtain ⟨rn, rks, m, tl, e1, e2, e3, e4⟩ := find_min_spec hIr hrn
            obtain ⟨r1, er, hr1, hkr, hr1a, hr1b⟩ := hr m
            rw [e4, List.erase_cons_head] at hkr
            have hpush : (Node.push (ks.erase k) m).2 = ks.erase k ++ [m] := by
              rw [Node.push_spec _ m hske]
              exact insertKey_eq_append m _ (fun y hy => hkR y (hsub y hy) m (by simp [e4]))
            have hkeys : (keysOf (node ks h l r)).erase k
                = keysOf l ++ (ks.erase k ++ [m]) ++ keysOf r1 := by
              rw [hkeys0, hkr, e4]; simp
            rw [hkeys] at hSe
            have := hr1.height_ge
            obtain ⟨t, e, ht, hkt, htn, hta, htb, htc⟩ :=
              balance_spec ins rem (ks.erase k ++ [m]) h l r1 hIl hr1 (by simp)
                (by simp; omega) (Or.inl hln) hSe (by omega) (by omega)
                hins (fun _ => hl) (fun hc => absurd hc hln)
            refine ⟨t, ?_, ht, by rw [hkt, hkeys], ?_, ?_⟩
            · simp [remove_body, hnl, ea, c1, eb, c2, herase, hk, c3, e1, e2, e3, er, hpush, e]
            · simp only [height_node]; omega
            · simp only [height_node]; omega
          · obtain ⟨ln, lks, m, tl, e1, e2, e3, e4⟩ := find_max_spec hIl hln
            obtain ⟨l1, el, hl1, hkl, hl1a, hl1b⟩ := hl m
            have hmtl : m ∉ tl := by
              intro hm
              rw [e4] at hsL
              have := (List.pairwise_append.1 hsL).2.2 m hm m (by simp)
              omega
            rw [e4, List.erase_append_right _ hmtl] at hkl
            simp only [List.erase_cons_head, List.append_nil] at hkl
            have hpush : (Node.push (ks.erase k) m).2 = m :: ks.erase k := by
              rw [Node.push_spec _ m hske]
              exact insertKey_eq_cons m _ (fun y hy => hLk m (by simp [e4]) y (hsub y hy))
            have hkeys : (keysOf (node ks h l r)).erase k
                = keysOf l1 ++ (m :: ks.erase k) ++ keysOf r := by
              rw [hkeys0, hkl, e4]; simp
            rw [hkeys] at hSe
            have := hl1.height_ge
            obtain ⟨t, e, ht, hkt, htn, hta, htb, htc⟩ :=
              balance_spec ins rem (m :: ks.erase k) h l1 r hl1 hIr (by simp)
                (by simp; omega) (Or.inr hrn) hSe (by omega) (by omega)
                hins (fun hc => absurd hc hrn) (fun _ => hr)
            refine ⟨t, ?_, ht, by rw [hkt, hkeys], ?_, ?_⟩
            · simp [remove_body, hnl, ea, c1, eb, c2, herase, hk, c3, e1, e2, e3, el, hpush, e]
            · simp only [height_node]; omega
            · simp only [height_node]; omega
        · -- the key is not in the tree
          have hkeys : (keysOf (node ks h l r)).erase k = keysOf l ++ ks ++ keysOf r := by
            rw [keysOf_node]
            refine List.erase_of_not_mem ?_
            simp only [List.mem_append, not_or]
            exact ⟨⟨hkL (by omega), hk⟩, hkR1 (by omega)⟩
          obtain ⟨t, e, ht, hkt, htn, hta, htb, htc⟩ :=
            balance_two_spec ins rem ks h l r hIl hIr hks hlen hln hrn (by omega) (by omega)
          refine ⟨t, ?_, ht, by rw [hkt, hkeys], ?_, ?_⟩
          · simp [remove_body, hnl, ea, c1, eb, c2, herase, hk, e]
          · simp only [height_node]; omega
          · simp only [height_node]; omega

end Tree
end DualAVLTree

/-! ## Enough fuel gives the result -/

namespace DualAVLTree
namespace Tree

theorem insert_null (g : Nat) (k : Int) :
    insert (g + 1) k null = some (node [k] 0 null null) := by
  simp [insert, insert_body, NODE_HEIGHT, EMPTY_NODE_HEIGHT]

theorem insert_total (t : Tree) (hI : Inv t) (hS : (keysOf t).Sorted (· < ·)) :
    ∃ f, ∀ g, f ≤ g → ∀ k, ∃ t1, insert g k t = some t1 ∧ InsPost t k t1 := by
  induction t with
  | null =>
    refine ⟨1, fun g hg k => ?_⟩
    obtain ⟨g1, rfl⟩ : ∃ g1, g = g1 + 1 := ⟨g - 1, by omega⟩
    refine ⟨_, insert_null g1 k, Inv.leaf (by simp) (by simp), by simp [insertKey],
      by simp, by simp, by simp⟩
  | node ks h l r ihl ihr =>
    have hp := sorted_parts (by simpa using hS)
    obtain ⟨fl, hfl⟩ := ihl hI.1 hp.1
    obtain ⟨fr, hfr⟩ := ihr hI.2.1 hp.2.2.1
    refine ⟨Max.max fl fr + 1, fun g hg k => ?_⟩
    obtain ⟨g1, rfl⟩ : ∃ g1, g = g1 + 1 := ⟨g - 1, by omega⟩
    rw [insert]
    exact insert_body_spec _ _ k ks h l r hI hS (hfl g1 (by omega)) (hfr g1 (by omega))

theorem remove_total (t : Tree) (hI : Inv t) (hS : (keysOf t).Sorted (· < ·)) :
    ∃ f, ∀ g, f ≤ g → ∀ k, ∃ t1, remove g k t = some t1 ∧ RemPost t k t1 := by
  induction t with
  | null =>
    refine ⟨1, fun g hg k => ?_⟩
    obtain ⟨g1, rfl⟩ : ∃ g1, g = g1 + 1 := ⟨g - 1, by omega⟩
    refine ⟨null, by simp [remove, remove_body], trivial, by simp, by simp, by simp⟩
  | node ks h l r ihl ihr =>
    have hp := sorted_parts (by simpa using hS)
    obtain ⟨fl, hfl⟩ := ihl hI.1 hp.1
    obtain ⟨fr, hfr⟩ := ihr hI.2.1 hp.2.2.1
    refine ⟨Max.max fl fr + 2, fun g hg k => ?_⟩
    obtain ⟨g1, rfl⟩ : ∃ g1, g = g1 + 2 := ⟨g - 2, by omega⟩
    rw [remove]
    exact remove_body_spec _ _ k ks h l r hI hS (fun m => insert_null g1 m)
      (hfl (g1 + 1) (by omega)) (hfr (g1 + 1) (by omega))

/-- With enough fuel `insert(k, t)` returns, and the result satisfies `InsPost`. -/
theorem insert_spec (t : Tree) (hI : Inv t) (hS : (keysOf t).Sorted (· < ·)) (k : Int) :
    ∃ t1, (∃ f, ∀ g, f ≤ g → insert g k t = some t1) ∧ InsPost t k t1 := by
  obtain ⟨f, hf⟩ := insert_total t hI hS
  obtain ⟨t1, e, hp⟩ := hf f (le_refl f) k
  exact ⟨t1, ⟨f, fun g hg => insert_mono hg e⟩, hp⟩

/-- With enough fuel `remove(k, t)` returns, and the result satisfies `RemPost`. -/
theorem remove_spec (t : Tree) (hI : Inv t) (hS : (keysOf t).Sorted (· < ·)) (k : Int) :
    ∃ t1, (∃ f, ∀ g, f ≤ g → remove g k t = some t1) ∧ RemPost t k t1 := by
  obtain ⟨f, hf⟩ := remove_total t hI hS
  obtain ⟨t1, e, hp⟩ := hf f (le_refl f) k
  exact ⟨t1, ⟨f, fun g hg => remove_mono hg e⟩, hp⟩

theorem insert_post {f : Nat} {k : Int} {t t1 : Tree} (hI : Inv t)
    (hS : (keysOf t).Sorted (· < ·)) (e : insert f k t = some t1) : InsPost t k t1 := by
  obtain ⟨t2, ⟨f2, hf2⟩, hp⟩ := insert_spec t hI hS k
  have e1 := insert_mono (le_max_left f f2) e
  have e2 := hf2 (Max.max f f2) (le_max_right f f2)
  rw [e1] at e2
  cases e2
  exact hp

theorem remove_post {f : Nat} {k : Int} {t t1 : Tree} (hI : Inv t)
    (hS : (keysOf t).Sorted (· < ·)) (e : remove f k t = some t1) : RemPost t k t1 := by
  obtain ⟨t2, ⟨f2, hf2⟩, hp⟩ := remove_spec t hI hS k
  have e1 := remove_mono (le_max_left f f2) e
  have e2 := hf2 (Max.max f f2) (le_max_right f f2)
  rw [e1] at e2
  cases e2
  exact hp

theorem insPost_sorted {t t1 : Tree} {k : Int} (hS : (keysOf t).Sorted (· < ·))
    (h : InsPost t k t1) : (keysOf t1).Sorted (· < ·) := by
  rw [h.2.1]; exact insertKey_sorted k _ hS

theorem remPost_sorted {t t1 : Tree} {k : Int} (hS : (keysOf t).Sorted (· < ·))
    (h : RemPost t k t1) : (keysOf t1).Sorted (· < ·) := by
  rw [h.2.1]; exact sorted_erase hS k

end Tree

open Tree

theorem Reachable.good {t : Tree} (h : Reachable t) : Inv t ∧ (keysOf t).Sorted (· < ·) := by
  induction h with
  | new => exact ⟨trivial, by simp⟩
  | insert f k _ e ih =>
    have hp := insert_post ih.1 ih.2 e
    exact ⟨hp.1, insPost_sorted ih.2 hp⟩
  | remove f k _ e ih =>
    have hp := remove_post ih.1 ih.2 e
    exact ⟨hp.1, remPost_sorted ih.2 hp⟩

end DualAVLTree

/-! ## The contract on reachable trees -/

namespace DualAVLTree

open Tree

theorem Tree.Inv.searchOrder {t : Tree} (hI : Inv t) (hS : (keysOf t).Sorted (· < ·)) :
    SearchOrder t := by
  induction t with
  | null => trivial
  | node ks h l r ihl ihr =>
    obtain ⟨hsL, hsk, hsR, hLk, hkR, -⟩ := sorted_parts (by simpa using hS)
    refine ⟨hsk, hI.2.2.1, ?_, ?_, ihl hI.1 hsL, ihr hI.2.1 hsR⟩
    · intro x hx mn hmn
      exact hLk x hx mn (List.mem_of_mem_head? hmn)
    · intro x hx mx hmx
      exact hkR mx (List.mem_of_mem_getLast? hmx) x hx

theorem Tree.Inv.avl {t : Tree} (hI : Inv t) : AVL t := by
  induction t with
  | null => trivial
  | node ks h l r ihl ihr =>
    obtain ⟨h1, h2, -, -, h5, h6, -⟩ := id hI
    refine ⟨?_, ihl h1, ihr h2⟩
    rw [h1.realHeight_eq, h2.realHeight_eq, abs_le]
    constructor <;> omega

theorem Tree.Inv.capacity {t : Tree} (hI : Inv t) : Capacity t := by
  induction t with
  | null => trivial
  | node ks h l r ihl ihr =>
    obtain ⟨h1, h2, h3, -, -, -, h7⟩ := id hI
    have hpos : 1 ≤ ks.length := List.length_pos.2 h3
    refine ⟨?_, ihl h1, ihr h2⟩
    rcases h7 with ⟨rfl, rfl, hlen⟩ | ⟨hln, hrn, hlen⟩
    · simpa [Node.size, MAX_LEAF_KEYS] using ⟨hpos, hlen⟩
    · simpa [is_leaf_false_left r hln, Node.size, MAX_INTERNAL_NODE_KEYS] using ⟨hpos, hlen⟩

/-- C1: on every tree reachable from the empty tree by `insert` and `remove` calls, the
search-order invariant holds at every node (strictly increasing key list, left subtree
below the node's minimum key, right subtree above its maximum key), and the in-order
concatenation of the key lists is strictly increasing, hence duplicate-free. -/
theorem reachable_search_order (t : Tree) (h : Reachable t) :
    SearchOrder t ∧ (keysOf t).Sorted (· < ·) ∧ (keysOf t).Nodup :=
  ⟨h.good.1.searchOrder h.good.2, h.good.2, h.good.2.nodup⟩

/-- C2: on every reachable tree, every node satisfies `|height(left) - height(right)| ≤ 1`
for the true heights (absent child `-1`, single node `0`). -/
theorem reachable_avl (t : Tree) (h : Reachable t) : AVL t :=
  h.good.1.avl

/-- C3: on every reachable tree, every leaf holds 1 to 3 keys and every internal node
holds 1 to 2 keys. -/
theorem reachable_capacity (t : Tree) (h : Reachable t) : Capacity t :=
  h.good.1.capacity

/-- C4: on a reachable tree `insert(k)` returns (for all sufficient fuel, the same tree),
and the keys stored afterwards are exactly the old keys together with `k`. -/
theorem insert_key_set (t : Tree) (h : Reachable t) (k : Int) :
    ∃ t1, (∃ f, ∀ g, f ≤ g → insert g k t = some t1) ∧
      ∀ x, x ∈ keysOf t1 ↔ x ∈ keysOf t ∨ x = k := by
  obtain ⟨t1, hf, hp⟩ := insert_spec t h.good.1 h.good.2 k
  refine ⟨t1, hf, fun x => ?_⟩
  rw [hp.2.1, mem_insertKey]
  tauto

/-- C5: on a reachable tree `remove(k)` returns (for all sufficient fuel, the same tree),
and the keys stored afterwards are exactly the old keys other than `k`. -/
theorem remove_key_set (t : Tree) (h : Reachable t) (k : Int) :
    ∃ t1, (∃ f, ∀ g, f ≤ g → remove g k t = some t1) ∧
      ∀ x, x ∈ keysOf t1 ↔ x ∈ keysOf t ∧ x ≠ k := by
  obtain ⟨t1, hf, hp⟩ := remove_spec t h.good.1 h.good.2 k
  refine ⟨t1, hf, fun x => ?_⟩
  rw [hp.2.1, h.good.2.nodup.mem_erase_iff]
  tauto

/-- C6, as amended: on a reachable tree that does not store `k`, `insert(k)` followed by
`remove(k)` returns a tree storing exactly the keys stored before the insert. -/
theorem insert_remove_key_set (t : Tree) (h : Reachable t) (k : Int) (hk : k ∉ keysOf t) :
    ∃ t1 t2, (∃ f, ∀ g, f ≤ g → insert g k t = some t1 ∧ remove g k t1 = some t2) ∧
      ∀ x, x ∈ keysOf t2 ↔ x ∈ keysOf t := by
  obtain ⟨t1, ⟨f1, hf1⟩, hp1⟩ := insert_spec t h.good.1 h.good.2 k
  have hS1 := insPost_sorted h.good.2 hp1
  obtain ⟨t2, ⟨f2, hf2⟩, hp2⟩ := remove_spec t1 hp1.1 hS1 k
  refine ⟨t1, t2, ⟨Max.max f1 f2, fun g hg => ⟨hf1 g (by omega), hf2 g (by omega)⟩⟩, fun x => ?_⟩
  rw [hp2.2.1, hS1.nodup.mem_erase_iff, hp1.2.1, mem_insertKey]
  constructor
  · rintro ⟨h1, h2 | h2⟩
    · exact absurd h2 h1
    · exact h2
  · intro hx
    exact ⟨fun hc => hk (hc ▸ hx), Or.inr hx⟩

/-- C6, as stated, fails when the key is already stored: from the reachable one-key tree
holding `5`, `insert(5)` changes nothing and `remove(5)` empties the tree, so the key `5`
is lost. -/
theorem insert_remove_stored_key :
    Reachable (node [5] 0 null null) ∧
    insert 2 5 (node [5] 0 null null) = some (node [5] 0 null null) ∧
    remove 2 5 (node [5] 0 null null) = some null ∧
    ¬ (∀ x, x ∈ keysOf null ↔ x ∈ keysOf (node [5] 0 null null)) := by
  refine ⟨Reachable.insert 1 5 Reachable.new rfl, by decide, by decide, ?_⟩
  intro hc
  have := (hc 5).2 (by simp)
  simp at this

end DualAVLTree

/-! ## Sequences of calls, queries and the census -/

namespace DualAVLTree

open Tree

theorem insert_all_mono {f g : Nat} (hfg : f ≤ g) (ks : List Int) {t r : Tree}
    (h : insert_all f ks t = some r) : insert_all g ks t = some r := by
  induction ks generalizing t with
  | nil => exact h
  | cons k ks ih =>
    simp only [insert_all, Option.bind_eq_some] at h ⊢
    obtain ⟨t1, e1, e2⟩ := h
    exact ⟨t1, insert_mono hfg e1, ih e2⟩

theorem insert_all_spec (ks : List Int) (t : Tree) (hI : Inv t)
    (hS : (keysOf t).Sorted (· < ·)) :
    ∃ t1, (∃ f, ∀ g, f ≤ g → insert_all g ks t = some t1) ∧ Inv t1 ∧
      (keysOf t1).Sorted (· < ·) ∧ ∀ x, x ∈ keysOf t1 ↔ x ∈ keysOf t ∨ x ∈ ks := by
  induction ks generalizing t with
  | nil => exact ⟨t, ⟨0, fun g _ => rfl⟩, hI, hS, by simp⟩
  | cons k ks ih =>
    obtain ⟨t1, ⟨f1, hf1⟩, hp1⟩ := insert_spec t hI hS k
    obtain ⟨t2, ⟨f2, hf2⟩, hI2, hS2, hk2⟩ := ih t1 hp1.1 (insPost_sorted hS hp1)
    refine ⟨t2, ⟨Max.max f1 f2, fun g hg => ?_⟩, hI2, hS2, fun x => ?_⟩
    · simp only [insert_all, insert]
      rw [hf1 g (by omega)]
      exact hf2 g (by omega)
    · rw [hk2, hp1.2.1, mem_insertKey, List.mem_cons]
      tauto

theorem remove_all_spec (ks : List Int) (t : Tree) (hI : Inv t)
    (hS : (keysOf t).Sorted (· < ·)) :
    ∃ t1, (∃ f, ∀ g, f ≤ g → remove_all g ks t = some t1) ∧ Inv t1 ∧
      (keysOf t1).Sorted (· < ·) ∧ ∀ x, x ∈ keysOf t1 ↔ x ∈ keysOf t ∧ x ∉ ks := by
  induction ks generalizing t with
  | nil => exact ⟨t, ⟨0, fun g _ => rfl⟩, hI, hS, by simp⟩
  | cons k ks ih =>
    obtain ⟨t1, ⟨f1, hf1⟩, hp1⟩ := remove_spec t hI hS k
    obtain ⟨t2, ⟨f2, hf2⟩, hI2, hS2, hk2⟩ := ih t1 hp1.1 (remPost_sorted hS hp1)
    refine ⟨t2, ⟨Max.max f1 f2, fun g hg => ?_⟩, hI2, hS2, fun x => ?_⟩
    · simp only [remove_all, remove]
      rw [hf1 g (by omega)]
      exact hf2 g (by omega)
    · rw [hk2, hp1.2.1, hS.nodup.mem_erase_iff, List.mem_cons]
      tauto

/-- C7: after the keys of any list `ks` are inserted one at a time into the empty tree,
removing one at a time the keys of any list `rs` that contains every inserted key (the
inserted keys in any order) leaves the empty tree: `empty()` is true and
`get_statistics()` is `{0,0,0,0}`, so the node count is 0. -/
theorem remove_all_inserted (ks rs : List Int) (h : ∀ k ∈ ks, k ∈ rs) :
    ∃ t t2, (∃ f, ∀ g, f ≤ g → insert_all g ks null = some t ∧ remove_all g rs t = some t2) ∧
      t2 = null ∧ empty t2 = true ∧ get_statistics t2 = some [0, 0, 0, 0] := by
  obtain ⟨t, ⟨f1, hf1⟩, hI, hS, hk⟩ := insert_all_spec ks null trivial (by simp)
  obtain ⟨t2, ⟨f2, hf2⟩, hI2, -, hk2⟩ := remove_all_spec rs t hI hS
  have ht2 : t2 = null := by
    by_contra hc
    obtain ⟨x, hx⟩ := List.exists_mem_of_ne_nil _ (hI2.keysOf_ne_nil hc)
    obtain ⟨h1, h2⟩ := (hk2 x).1 hx
    rcases (hk x).1 h1 with h3 | h3
    · simp at h3
    · exact h2 (h x h3)
  subst ht2
  exact ⟨t, null, ⟨Max.max f1 f2, fun g hg => ⟨hf1 g (by omega), hf2 g (by omega)⟩⟩,
    rfl, rfl, rfl⟩

theorem find_min_eq {t : Tree} (hI : Inv t) (hn : t ≠ null) :
    ∃ m tl, find_min t = some m ∧ keysOf t = m :: tl := by
  obtain ⟨rn, rks, m, tl, e1, e2, e3, e4⟩ := find_min_spec hI hn
  refine ⟨m, tl, ?_, e4⟩
  cases t with
  | null => exact absurd rfl hn
  | node ks h l r => simp [find_min, empty, e1, e2, e3]

theorem find_max_eq {t : Tree} (hI : Inv t) (hn : t ≠ null) :
    ∃ m tl, find_max t = some m ∧ keysOf t = tl ++ [m] := by
  obtain ⟨rn, rks, m, tl, e1, e2, e3, e4⟩ := find_max_spec hI hn
  refine ⟨m, tl, ?_, e4⟩
  cases t with
  | null => exact absurd rfl hn
  | node ks h l r => simp [find_max, empty, e1, e2, e3]

/-- C8: on every non-empty reachable tree `find_min()` returns the smallest stored key and
`find_max()` the largest stored key; and on the tree built by inserting 5, 1, 9, 3 they
return 1 and 9. -/
theorem find_min_max_extremal (t : Tree) (h : Reachable t) (hne : empty t = false) :
    (∃ mn mx, find_min t = some mn ∧ find_max t = some mx ∧
      mn ∈ keysOf t ∧ mx ∈ keysOf t ∧ ∀ x ∈ keysOf t, mn ≤ x ∧ x ≤ mx) ∧
    (∃ t4, (∀ g, 2 ≤ g → insert_all g [5, 1, 9, 3] null = some t4) ∧
      find_min t4 = some 1 ∧ find_max t4 = some 9) := by
  constructor
  · have hn : t ≠ null := by
      rintro rfl
      simp [empty] at hne
    obtain ⟨mn, tl1, e1, k1⟩ := find_min_eq h.good.1 hn
    obtain ⟨mx, tl2, e2, k2⟩ := find_max_eq h.good.1 hn
    refine ⟨mn, mx, e1, e2, by simp [k1], by simp [k2], fun x hx => ⟨?_, ?_⟩⟩
    · have hS := h.good.2
      rw [k1] at hS hx
      rcases List.mem_cons.1 hx with rfl | hx
      · exact le_refl _
      · exact le_of_lt ((List.sorted_cons.1 hS).1 x hx)
    · have hS := h.good.2
      rw [k2] at hS hx
      rcases List.mem_append.1 hx with hx | hx
      · exact le_of_lt ((List.pairwise_append.1 hS).2.2 x hx mx (by simp))
      · simp at hx; omega
  · exact ⟨node [3, 5] 1 (node [1] 0 null null) (node [9] 0 null null),
      fun g hg => insert_all_mono hg [5, 1, 9, 3] (by decide), by decide, by decide⟩

/-- C9, as amended: on the empty tree `find_min()` returns the most positive `int`,
`KEY_POS_INF = 2147483647`, and `find_max()` returns the most negative `int`,
`KEY_NEG_INF = -2147483648`. -/
theorem find_min_max_empty :
    empty null = true ∧ find_min null = some KEY_POS_INF ∧ find_max null = some KEY_NEG_INF ∧
    KEY_POS_INF = 2 ^ 31 - 1 ∧ KEY_NEG_INF = -(2 ^ 31) := by
  decide

/-- C9, as stated, fails: on the empty tree `find_min()` does not return the most negative
value and `find_max()` does not return the most positive value. -/
theorem find_min_max_empty_not_swapped :
    find_min null ≠ some KEY_NEG_INF ∧ find_max null ≠ some KEY_POS_INF := by
  decide

end DualAVLTree

namespace DualAVLTree

open Tree

theorem Tree.get_statistics_acc (t : Tree) (hL : LeafSizes t) (a b c d : Int) :
    Tree.get_statistics [a, b, c, d] t
      = some [a + countNodes t, b + countLeaves 1 t, c + countLeaves 2 t,
          d + countLeaves 3 t] := by
  induction t generalizing a b c d with
  | null => simp [Tree.get_statistics, countNodes, countLeaves]
  | node ks h l r ihl ihr =>
    obtain ⟨h1, h2, h3⟩ := hL
    by_cases c1 : Node.is_leaf l r = true
    · have hlr : l = null ∧ r = null := by
        cases l <;> cases r <;> simp_all [Node.is_leaf]
      obtain ⟨rfl, rfl⟩ := hlr
      have hsz := h1 c1
      simp only [Node.size, MAX_LEAF_KEYS] at hsz
      have h4 : ks.length = 1 ∨ ks.length = 2 ∨ ks.length = 3 := by omega
      rcases h4 with h4 | h4 | h4 <;>
        simp [Tree.get_statistics, countNodes, countLeaves, Node.size, h4, List.modify,
          List.modifyTailIdx, List.modifyHead]
    · have c2 : Node.is_leaf l r = false := by simpa using c1
      simp only [Tree.get_statistics, c2, countNodes, countLeaves, Option.bind_eq_bind]
      simp [List.modify, List.modifyTailIdx, List.modifyHead, ihl h2, ihr h3]
      refine ⟨?_, ?_, ?_, ?_⟩ <;> ring

theorem Tree.count_split (t : Tree) (hL : LeafSizes t) :
    countNodes t = countLeaves 1 t + countLeaves 2 t + countLeaves 3 t + countInternal t := by
  induction t with
  | null => simp [countNodes, countLeaves, countInternal]
  | node ks h l r ihl ihr =>
    obtain ⟨h1, h2, h3⟩ := hL
    have el := ihl h2
    have er := ihr h3
    by_cases c1 : Node.is_leaf l r = true
    · have hsz := h1 c1
      simp only [Node.size, MAX_LEAF_KEYS] at hsz
      have h4 : ks.length = 1 ∨ ks.length = 2 ∨ ks.length = 3 := by omega
      rcases h4 with h4 | h4 | h4 <;>
        simp [countNodes, countLeaves, countInternal, c1, Node.size, h4] <;> omega
    · have c2 : Node.is_leaf l r = false := by simpa using c1
      simp [countNodes, countLeaves, countInternal, c2]
      omega

/-- C10: on every tree whose leaves hold 1 to 3 keys, `get_statistics()` returns the four
counters: the number of all nodes, then the numbers of leaves holding exactly 1, 2 and 3
keys; internal nodes are counted in the first counter only, which therefore exceeds the
three leaf counters by the number of internal nodes; on the empty tree the result is
`{0,0,0,0}`. -/
theorem get_statistics_census (t : Tree) (h : LeafSizes t) :
    get_statistics t
      = some [countNodes t, countLeaves 1 t, countLeaves 2 t, countLeaves 3 t] ∧
    countNodes t - countLeaves 1 t - countLeaves 2 t - countLeaves 3 t = countInternal t ∧
    get_statistics null = some [0, 0, 0, 0] := by
  refine ⟨?_, ?_, rfl⟩
  · have := Tree.get_statistics_acc t h 0 0 0 0
    simpa [get_statistics, MAX_LEAF_KEYS, List.replicate] using this
  · have := Tree.count_split t h
    omega

end DualAVLTree

/-! ## The contract at a concrete tree -/

namespace DualAVLTree

open Tree

theorem sample_reachable : Reachable sample :=
  Reachable.insert 2 3 (Reachable.insert 1 9 (Reachable.insert 1 1
    (Reachable.insert 1 5 Reachable.new rfl) rfl) rfl) rfl

theorem reachable_search_order_witness :
    Reachable sample ∧
      (SearchOrder sample ∧ (keysOf sample).Sorted (· < ·) ∧ (keysOf sample).Nodup) :=
  ⟨sample_reachable, reachable_search_order sample sample_reachable⟩

theorem reachable_avl_witness : Reachable sample ∧ AVL sample :=
  ⟨sample_reachable, reachable_avl sample sample_reachable⟩

theorem reachable_capacity_witness : Reachable sample ∧ Capacity sample :=
  ⟨sample_reachable, reachable_capacity sample sample_reachable⟩

theorem insert_key_set_witness :
    Reachable sample ∧ ∃ t1, (∃ f, ∀ g, f ≤ g → insert g 7 sample = some t1) ∧
      ∀ x, x ∈ keysOf t1 ↔ x ∈ keysOf sample ∨ x = 7 :=
  ⟨sample_reachable, insert_key_set sample sample_reachable 7⟩

theorem remove_key_set_witness :
    Reachable sample ∧ ∃ t1, (∃ f, ∀ g, f ≤ g → remove g 3 sample = some t1) ∧
      ∀ x, x ∈ keysOf t1 ↔ x ∈ keysOf sample ∧ x ≠ 3 :=
  ⟨sample_reachable, remove_key_set sample sample_reachable 3⟩

theorem insert_remove_key_set_witness :
    Reachable sample ∧ (4 : Int) ∉ keysOf sample ∧
      ∃ t1 t2, (∃ f, ∀ g, f ≤ g → insert g 4 sample = some t1 ∧ remove g 4 t1 = some t2) ∧
        ∀ x, x ∈ keysOf t2 ↔ x ∈ keysOf sample :=
  ⟨sample_reachable, by decide, insert_remove_key_set sample sample_reachable 4 (by decide)⟩

theorem remove_all_inserted_witness :
    (∀ k ∈ [(5 : Int), 1, 9, 3], k ∈ [(3 : Int), 9, 1, 5]) ∧
      ∃ t t2, (∃ f, ∀ g, f ≤ g →
          insert_all g [5, 1, 9, 3] null = some t ∧ remove_all g [3, 9, 1, 5] t = some t2) ∧
        t2 = null ∧ empty t2 = true ∧ get_statistics t2 = some [0, 0, 0, 0] :=
  ⟨by decide, remove_all_inserted [5, 1, 9, 3] [3, 9, 1, 5] (by decide)⟩

theorem find_min_max_extremal_witness :
    Reachable sample ∧ empty sample = false ∧
      ((∃ mn mx, find_min sample = some mn ∧ find_max sample = some mx ∧
        mn ∈ keysOf sample ∧ mx ∈ keysOf sample ∧ ∀ x ∈ keysOf sample, mn ≤ x ∧ x ≤ mx) ∧
      (∃ t4, (∀ g, 2 ≤ g → insert_all g [5, 1, 9, 3] null = some t4) ∧
        find_min t4 = some 1 ∧ find_max t4 = some 9)) :=
  ⟨sample_reachable, by decide, find_min_max_extremal sample sample_reachable (by decide)⟩

theorem get_statistics_census_witness :
    LeafSizes sample ∧
      (get_statistics sample
        = some [countNodes sample, countLeaves 1 sample, countLeaves 2 sample,
            countLeaves 3 sample] ∧
      countNodes sample - countLeaves 1 sample - countLeaves 2 sample - countLeaves 3 sample
        = countInternal sample ∧
      get_statistics null = some [0, 0, 0, 0]) :=
  ⟨by decide, get_statistics_census sample (by decide)⟩

end DualAVLTree

/-! ## Range operations -/

namespace DualAVLTree

open Tree

theorem progression_of_gt {start end_ : Int} (step : Int) (h : end_ < start) :
    progression start end_ step = [] := by
  simp [progression, not_le.2 h]

theorem progression_cons {start end_ step : Int} (hs : 1 ≤ step) (h : start ≤ end_) :
    progression start end_ step = start :: progression (start + step) end_ step := by
  unfold progression
  rw [if_pos h]
  by_cases h2 : start + step ≤ end_
  · rw [if_pos h2]
    have e1 : end_ - start = (end_ - (start + step)) + step := by ring
    have e2 : (end_ - start) / step = (end_ - (start + step)) / step + 1 := by
      rw [e1, Int.add_ediv_of_dvd_right (dvd_refl step), Int.ediv_self (by omega)]
    have h3 : 0 ≤ (end_ - (start + step)) / step := Int.ediv_nonneg (by omega) (by omega)
    have e3 : ((end_ - start) / step + 1).toNat
        = ((end_ - (start + step)) / step + 1).toNat + 1 := by
      rw [e2]; omega
    rw [e3, List.range_succ_eq_map, List.map_cons, List.map_map]
    simp only [Nat.cast_zero, zero_mul, add_zero, List.cons.injEq, true_and]
    apply List.map_congr_left
    intro i _
    simp only [Function.comp, Nat.cast_succ]
    ring
  · rw [if_neg h2]
    have e2 : (end_ - start) / step = 0 := Int.ediv_eq_zero_of_lt (by omega) (by omega)
    simp [e2, List.range_succ]

theorem length_progression_cons {start end_ step : Int} (hs : 1 ≤ step) (h : start ≤ end_) :
    (progression start end_ step).length = (progression (start + step) end_ step).length + 1 := by
  rw [progression_cons hs h]; rfl

theorem insert_loop_eq (fuel : Nat) (end_ step : Int) (hs : 1 ≤ step) (iters : Nat) (k : Int)
    (hk : KEY_NEG_INF ≤ k) (hov : ∀ x ∈ progression k end_ step, x + step ≤ KEY_POS_INF)
    (hi : (progression k end_ step).length ≤ iters) (root : Tree) :
    insert_loop fuel end_ step iters k root = insert_all fuel (progression k end_ step) root := by
  induction iters generalizing k root with
  | zero =>
    have hnil : progression k end_ step = [] := List.length_eq_zero.1 (by omega)
    have hgt : ¬ k ≤ end_ := by
      intro hc
      rw [progression_cons hs hc] at hnil
      simp at hnil
    simp [insert_loop, hgt, hnil, insert_all]
  | succ n ih =>
    by_cases hc : k ≤ end_
    · have hlen := length_progression_cons hs hc
      have hov1 := hov k (by rw [progression_cons hs hc]; simp)
      have hov2 : ∀ x ∈ progression (k + step) end_ step, x + step ≤ KEY_POS_INF :=
        fun x hx => hov x (by rw [progression_cons hs hc]; simp [hx])
      rw [progression_cons hs hc]
      simp only [insert_loop, if_pos hc, insert_all, Option.bind_eq_bind]
      have hin : KEY_NEG_INF ≤ k + step ∧ k + step ≤ KEY_POS_INF := by
        constructor <;> omega
      simp only [hin, and_self, if_true]
      congr 1
      funext root1
      exact ih (k + step) (by omega) hov2 (by omega) root1
    · rw [progression_of_gt step (by omega)]
      simp [insert_loop, hc, insert_all]

theorem remove_loop_eq (fuel : Nat) (end_ step : Int) (hs : 1 ≤ step) (iters : Nat) (k : Int)
    (hk : KEY_NEG_INF ≤ k) (hov : ∀ x ∈ progression k end_ step, x + step ≤ KEY_POS_INF)
    (hi : (progression k end_ step).length ≤ iters) (root : Tree) :
    remove_loop fuel end_ step iters k root = remove_all fuel (progression k end_ step) root := by
  induction iters generalizing k root with
  | zero =>
    have hnil : progression k end_ step = [] := List.length_eq_zero.1 (by omega)
    have hgt : ¬ k ≤ end_ := by
      intro hc
      rw [progression_cons hs hc] at hnil
      simp at hnil
    simp [remove_loop, hgt, hnil, remove_all]
  | succ n ih =>
    by_cases hc : k ≤ end_
    · have hlen := length_progression_cons hs hc
      have hov1 := hov k (by rw [progression_cons hs hc]; simp)
      have hov2 : ∀ x ∈ progression (k + step) end_ step, x + step ≤ KEY_POS_INF :=
        fun x hx => hov x (by rw [progression_cons hs hc]; simp [hx])
      rw [progression_cons hs hc]
      simp only [remove_loop, if_pos hc, remove_all, Option.bind_eq_bind]
      have hin : KEY_NEG_INF ≤ k + step ∧ k + step ≤ KEY_POS_INF := by
        constructor <;> omega
      simp only [hin, and_self, if_true]
      congr 1
      funext root1
      exact ih (k + step) (by omega) hov2 (by omega) root1
    · rw [progression_of_gt step (by omega)]
      simp [remove_loop, hc, remove_all]

theorem mem_progression {start end_ step : Int} (hs : 1 ≤ step) (x : Int) :
    x ∈ progression start end_ step ↔ ∃ i : Nat, x = start + (i : Int) * step ∧ x ≤ end_ := by
  unfold progression
  by_cases h : start ≤ end_
  · rw [if_pos h]
    simp only [List.mem_map, List.mem_range]
    have h0 : 0 ≤ (end_ - start) / step := Int.ediv_nonneg (by omega) (by omega)
    constructor
    · rintro ⟨i, hi, rfl⟩
      refine ⟨i, rfl, ?_⟩
      have h1 : (i : Int) ≤ (end_ - start) / step := by omega
      have h2 := (Int.le_ediv_iff_mul_le (by omega : 0 < step)).1 h1
      omega
    · rintro ⟨i, rfl, hi⟩
      refine ⟨i, ?_, rfl⟩
      have h2 : (i : Int) * step ≤ end_ - start := by omega
      have h1 := (Int.le_ediv_iff_mul_le (by omega : 0 < step)).2 h2
      omega
  · rw [if_neg h]
    simp only [List.not_mem_nil, false_iff, not_exists, not_and, not_le]
    rintro i rfl
    have : 0 ≤ (i : Int) * step := mul_nonneg (by omega) (by omega)
    omega

/-- C11: for `step ≥ 1` and a loop counter that does not overflow, `insert(start, end, step)`
returns exactly what calling `insert(k)` for the keys `start, start + step, ...` up to `end`
in ascending order returns, and the tree itself when `start > end`; `remove(start, end, step)`
is the same fold with `remove(k)`; on a reachable tree both return. -/
theorem range_is_fold (t : Tree) (start end_ step : Int) (hs : 1 ≤ step)
    (hlo : KEY_NEG_INF ≤ start)
    (hov : ∀ k ∈ progression start end_ step, k + step ≤ KEY_POS_INF) :
    (∀ x, x ∈ progression start end_ step ↔
      ∃ i : Nat, x = start + (i : Int) * step ∧ x ≤ end_) ∧
    (progression start end_ step).Sorted (· < ·) ∧
    (∀ fuel iters, (progression start end_ step).length ≤ iters →
      insert_range fuel iters start end_ step t
        = insert_all fuel (progression start end_ step) t ∧
      remove_range fuel iters start end_ step t
        = remove_all fuel (progression start end_ step) t) ∧
    (end_ < start → ∀ fuel iters, insert_range fuel iters start end_ step t = some t ∧
      remove_range fuel iters start end_ step t = some t) ∧
    (Reachable t → ∃ t1 t2 f, ∀ g iters, f ≤ g → (progression start end_ step).length ≤ iters →
      insert_range g iters start end_ step t = some t1 ∧
      remove_range g iters start end_ step t = some t2) := by
  have heq : ∀ fuel iters, (progression start end_ step).length ≤ iters →
      insert_range fuel iters start end_ step t
        = insert_all fuel (progression start end_ step) t ∧
      remove_range fuel iters start end_ step t
        = remove_all fuel (progression start end_ step) t := fun fuel iters hi =>
    ⟨insert_loop_eq fuel end_ step hs iters start hlo hov hi t,
      remove_loop_eq fuel end_ step hs iters start hlo hov hi t⟩
  refine ⟨mem_progression hs, ?_, heq, ?_, ?_⟩
  · unfold progression
    split
    · refine List.Pairwise.map _ ?_ (List.pairwise_lt_range _)
      intro i j hij
      have : (i : Int) * step < (j : Int) * step :=
        mul_lt_mul_of_pos_right (by exact_mod_cast hij) (by omega)
      omega
    · exact List.sorted_nil
  · intro hgt fuel iters
    have hnil := progression_of_gt step hgt
    have := heq fuel iters (by simp [hnil])
    simpa [hnil, insert_all, remove_all] using this
  · intro hr
    obtain ⟨t1, ⟨f1, hf1⟩, -⟩ :=
      insert_all_spec (progression start end_ step) t hr.good.1 hr.good.2
    obtain ⟨t2, ⟨f2, hf2⟩, -⟩ :=
      remove_all_spec (progression start end_ step) t hr.good.1 hr.good.2
    refine ⟨t1, t2, Max.max f1 f2, fun g iters hg hi => ?_⟩
    rw [(heq g iters hi).1, (heq g iters hi).2]
    exact ⟨hf1 g (by omega), hf2 g (by omega)⟩

end DualAVLTree

/-! ## Statistics and insertion order -/

namespace DualAVLTree

open Tree

set_option maxRecDepth 1000000 in
theorem statistics_of_orders :
    ∀ p ∈ ([0, 2, 4, 6, 8, 10] : List Int).permutations',
      (insert_all 2 p null).bind get_statistics = some [3, 1, 0, 1] ∨
      (insert_all 2 p null).bind get_statistics = some [3, 0, 2, 0] := by
  decide!

theorem bind_insert_all_mono {f g : Nat} (hfg : f ≤ g) (p : List Int) (t : Tree)
    (s : List Int) (h : (insert_all f p t).bind get_statistics = some s) :
    (insert_all g p t).bind get_statistics = some s := by
  obtain ⟨t1, e1, e2⟩ := Option.bind_eq_some.1 h
  rw [insert_all_mono hfg p e1]
  exact e2

/-- C12, as amended: from the empty tree, `get_statistics()` after `insert(0, 10, 2)` is
`{3,1,0,1}`, the same as after inserting 0, 2, 4, 6, 8, 10 one at a time in ascending order;
after inserting the six keys in any order `p` the node count is 3 and the result is
`{3,1,0,1}` or `{3,0,2,0}`, depending on the order. -/
theorem range_statistics_orders (p : List Int) (hp : p.Perm [0, 2, 4, 6, 8, 10]) :
    (∀ g iters, 2 ≤ g → 6 ≤ iters →
      (insert_range g iters 0 10 2 null).bind get_statistics = some [3, 1, 0, 1]) ∧
    (∀ g, 2 ≤ g →
      (insert_all g [0, 2, 4, 6, 8, 10] null).bind get_statistics = some [3, 1, 0, 1]) ∧
    (∀ g, 2 ≤ g →
      (insert_all g p null).bind get_statistics = some [3, 1, 0, 1] ∨
      (insert_all g p null).bind get_statistics = some [3, 0, 2, 0]) := by
  have hasc : ∀ g, 2 ≤ g →
      (insert_all g [0, 2, 4, 6, 8, 10] null).bind get_statistics = some [3, 1, 0, 1] :=
    fun g hg => bind_insert_all_mono hg _ _ _ (by decide)
  have hprog : progression 0 10 2 = [0, 2, 4, 6, 8, 10] := by decide
  refine ⟨fun g iters hg hi => ?_, hasc, fun g hg => ?_⟩
  · have := insert_loop_eq g 10 2 (by decide) iters 0 (by decide)
      (by rw [hprog]; decide) (by rw [hprog]; exact hi) null
    rw [insert_range, this, hprog]
    exact hasc g hg
  · rcases statistics_of_orders p (List.mem_permutations'.2 hp) with h | h
    · exact Or.inl (bind_insert_all_mono hg _ _ _ h)
    · exact Or.inr (bind_insert_all_mono hg _ _ _ h)

/-- C12, as stated, fails: inserting the six keys in the order 4, 6, 0, 10, 2, 8 gives the
statistics `{3,0,2,0}`, while the range insert `insert(0, 10, 2)` gives `{3,1,0,1}`. -/
theorem range_statistics_order_dependent :
    List.Perm [4, 6, 0, 10, 2, 8] ([0, 2, 4, 6, 8, 10] : List Int) ∧
    (insert_range 2 6 0 10 2 null).bind get_statistics = some [3, 1, 0, 1] ∧
    (insert_all 2 [4, 6, 0, 10, 2, 8] null).bind get_statistics = some [3, 0, 2, 0] := by
  decide

end DualAVLTree

/-! ## Operations that change nothing -/

namespace DualAVLTree
namespace Tree

theorem balance_id (ins rem : Int → Tree → Option Tree) {ks : List Int} {h : Int}
    {l r : Tree} (hI : Inv (node ks h l r)) :
    balance ins rem (node ks h l r) = some (node ks h l r) := by
  obtain ⟨hIl, hIr, hks, hh, hb1, hb2, hshape⟩ := id hI
  rcases hshape with ⟨rfl, rfl, -⟩ | ⟨hln, hrn, -⟩
  · simp only [height_null] at hh
    rw [balance_leaf, hh]
    rfl
  · rw [balance_two ins rem ks h hln hrn, ← hh]
    have c1 : ¬ (height r - height l = -2) := by omega
    have c2 : ¬ (height r - height l = 2) := by omega
    simp [balance_nodes, c1, c2]

theorem push_of_mem {ks : List Int} {k : Int} (hk : k ∈ ks) : Node.push ks k = (false, ks) := by
  have : (ks.any fun key => k == key) = true := by
    simp only [List.any_eq_true]; exact ⟨k, hk, by simp⟩
  simp [Node.push, this]

theorem erase_of_not_mem {ks : List Int} {k : Int} (hk : k ∉ ks) :
    Node.erase ks k = (false, ks) := by
  rw [Node.erase_spec]
  simp [hk, List.erase_of_not_mem hk]

theorem insert_stored (t : Tree) (hI : Inv t) (hS : (keysOf t).Sorted (· < ·)) (k : Int)
    (hk : k ∈ keysOf t) : ∃ f, ∀ g, f ≤ g → insert g k t = some t := by
  induction t with
  | null => simp at hk
  | node ks h l r ihl ihr =>
    obtain ⟨hIl, hIr, hks, hh, hb1, hb2, hshape⟩ := id hI
    simp only [keysOf_node] at hS hk
    obtain ⟨hsL, hsk, hsR, hLk, hkR, hLR⟩ := sorted_parts hS
    rcases hshape with ⟨rfl, rfl, hlen⟩ | ⟨hln, hrn, hlen⟩
    · refine ⟨1, fun g hg => ?_⟩
      obtain ⟨g1, rfl⟩ : ∃ g1, g = g1 + 1 := ⟨g - 1, by omega⟩
      have hk1 : k ∈ ks := by simpa using hk
      simp [insert, insert_body, push_of_mem hk1, balance_id _ _ hI]
    · have hnl : Node.is_leaf l r = false := is_leaf_false_left r hln
      obtain ⟨a, b, ea, eb, hak, hbk, hmin, hmax⟩ := min_max_spec hks hsk
      by_cases c1 : k < a
      · have hkl : k ∈ keysOf l := by
          rcases List.mem_append.1 hk with hk | hk
          · rcases List.mem_append.1 hk with hk | hk
            · exact hk
            · have := hmin k hk; omega
          · have := hkR a hak k hk; omega
        obtain ⟨f, hf⟩ := ihl hIl hsL hkl
        refine ⟨f + 1, fun g hg => ?_⟩
        obtain ⟨g1, rfl⟩ : ∃ g1, g = g1 + 1 := ⟨g - 1, by omega⟩
        simp [insert, insert_body, hnl, ea, c1, hf g1 (by omega), balance_id _ _ hI]
      · by_cases c2 : k > b
        · have hkr : k ∈ keysOf r := by
            rcases List.mem_append.1 hk with hk | hk
            · rcases List.mem_append.1 hk with hk | hk
              · have := hLk k hk b hbk; omega
              · have := hmax k hk; omega
            · exact hk
          obtain ⟨f, hf⟩ := ihr hIr hsR hkr
          refine ⟨f + 1, fun g hg => ?_⟩
          obtain ⟨g1, rfl⟩ : ∃ g1, g = g1 + 1 := ⟨g - 1, by omega⟩
          simp [insert, insert_body, hnl, ea, c1, eb, c2, hf g1 (by omega), balance_id _ _ hI]
        · have hk1 : k ∈ ks := by
            rcases List.mem_append.1 hk with hk | hk
            · rcases List.mem_append.1 hk with hk | hk
              · have := hLk k hk a hak; omega
              · exact hk
            · have := hkR b hbk k hk; omega
          refine ⟨1, fun g hg => ?_⟩
          obtain ⟨g1, rfl⟩ : ∃ g1, g = g1 + 1 := ⟨g - 1, by omega⟩
          simp [insert, insert_body, hnl, ea, c1, eb, c2, push_of_mem hk1, balance_id _ _ hI]

theorem remove_missing (t : Tree) (hI : Inv t) (hS : (keysOf t).Sorted (· < ·)) (k : Int)
    (hk : k ∉ keysOf t) : ∃ f, ∀ g, f ≤ g → remove g k t = some t := by
  induction t with
  | null =>
    refine ⟨1, fun g hg => ?_⟩
    obtain ⟨g1, rfl⟩ : ∃ g1, g = g1 + 1 := ⟨g - 1, by omega⟩
    simp [remove, remove_body]
  | node ks h l r ihl ihr =>
    obtain ⟨hIl, hIr, hks, hh, hb1, hb2, hshape⟩ := id hI
    simp only [keysOf_node, List.mem_append, not_or] at hS hk
    obtain ⟨hsL, hsk, hsR, hLk, hkR, hLR⟩ := sorted_parts hS
    have hke := erase_of_not_mem hk.1.2
    rcases hshape with ⟨rfl, rfl, hlen⟩ | ⟨hln, hrn, hlen⟩
    · refine ⟨1, fun g hg => ?_⟩
      obtain ⟨g1, rfl⟩ : ∃ g1, g = g1 + 1 := ⟨g - 1, by omega⟩
      simp [remove, remove_body, hke, balance_id _ _ hI]
    · have hnl : Node.is_leaf l r = false := is_leaf_false_left r hln
      obtain ⟨a, b, ea, eb, hak, hbk, hmin, hmax⟩ := min_max_spec hks hsk
      by_cases c1 : k < a
      · obtain ⟨f, hf⟩ := ihl hIl hsL hk.1.1
        refine ⟨f + 1, fun g hg => ?_⟩
        obtain ⟨g1, rfl⟩ : ∃ g1, g = g1 + 1 := ⟨g - 1, by omega⟩
        simp [remove, remove_body, hnl, ea, c1, hf g1 (by omega), balance_id _ _ hI]
      · by_cases c2 : k > b
        · obtain ⟨f, hf⟩ := ihr hIr hsR hk.2
          refine ⟨f + 1, fun g hg => ?_⟩
          obtain ⟨g1, rfl⟩ : ∃ g1, g = g1 + 1 := ⟨g - 1, by omega⟩
          simp [remove, remove_body, hnl, ea, c1, eb, c2, hf g1 (by omega), balance_id _ _ hI]
        · refine ⟨1, fun g hg => ?_⟩
          obtain ⟨g1, rfl⟩ : ∃ g1, g = g1 + 1 := ⟨g - 1, by omega⟩
          simp [remove, remove_body, hnl, ea, c1, eb, c2, hke, balance_id _ _ hI]

end Tree

open Tree

/-- C13: on a reachable tree that stores `k`, `insert(k)` returns the very same tree (same
shape, key lists and cached heights), and `Node::push` of a key that is in the key list
returns `false` and leaves the key list as it is. -/
theorem duplicate_insert_noop (t : Tree) (h : Reachable t) (k : Int) (hk : k ∈ keysOf t) :
    (∃ f, ∀ g, f ≤ g → insert g k t = some t) ∧
    (∀ ks : List Int, k ∈ ks → Node.push ks k = (false, ks)) :=
  ⟨insert_stored t h.good.1 h.good.2 k hk, fun _ hks => push_of_mem hks⟩

/-- C14: on a reachable tree (the empty tree included) that does not store `k`,
`remove(k)` returns the very same tree (same shape, key lists and cached heights). -/
theorem remove_missing_noop (t : Tree) (h : Reachable t) (k : Int) (hk : k ∉ keysOf t) :
    ∃ f, ∀ g, f ≤ g → remove g k t = some t :=
  remove_missing t h.good.1 h.good.2 k hk

/-- C15: on every reachable tree `insert(k)` and `remove(k)` are total: from some fuel on
(a bound on the nesting of the mutually recursive calls) each returns a tree, so no step
dereferences an absent node or reads the minimum or maximum of an empty key list (each of
which is `none` in the model, whatever the fuel). -/
theorem insert_remove_total (t : Tree) (h : Reachable t) (k : Int) :
    (∃ t1 f, ∀ g, f ≤ g → insert g k t = some t1) ∧
    (∃ t2 f, ∀ g, f ≤ g → remove g k t = some t2) := by
  obtain ⟨t1, ⟨f1, hf1⟩, -⟩ := insert_spec t h.good.1 h.good.2 k
  obtain ⟨t2, ⟨f2, hf2⟩, -⟩ := remove_spec t h.good.1 h.good.2 k
  exact ⟨⟨t1, f1, hf1⟩, ⟨t2, f2, hf2⟩⟩

end DualAVLTree

/-! ## Leaf split and internal overflow -/

namespace DualAVLTree

open Tree

theorem Tree.not_mem_any {ks : List Int} {k : Int} (hk : k ∉ ks) :
    (ks.any fun key => k == key) = false := by
  rw [List.any_eq_false]
  intro x hx hc
  rw [beq_iff_eq] at hc
  subst hc
  exact hk hx

/-- C16, as amended: when `insert` adds a key `k` to a leaf holding three other keys, the
four keys in increasing order being `w, x, y, z`, the minimum `w` goes to a new left child
leaf, the maximum `z` to a new right child leaf, and the node itself becomes internal and
keeps the two middle keys `x, y`. -/
theorem leaf_split (a b c k h : Int) (hk : k ∉ [a, b, c]) (g : Nat) :
    ∃ w x y z, ([a, b, c] ++ [k]).insertionSort (fun u v => u ≤ v) = [w, x, y, z] ∧
      List.Sorted (· ≤ ·) [w, x, y, z] ∧ List.Perm [w, x, y, z] [a, b, c, k] ∧
      insert (g + 2) k (node [a, b, c] h null null)
        = some (node [x, y] 1 (node [w] 0 null null) (node [z] 0 null null)) ∧
      Node.is_leaf (node [w] 0 null null) (node [z] 0 null null) = false ∧
      Node.size [x, y] = 2 := by
  have hlen : (([a, b, c] ++ [k]).insertionSort (fun u v => u ≤ v)).length = 4 := by
    rw [List.length_insertionSort]; rfl
  obtain ⟨w, x, y, z, e⟩ : ∃ w x y z,
      ([a, b, c] ++ [k]).insertionSort (fun u v => u ≤ v) = [w, x, y, z] := by
    match hm : ([a, b, c] ++ [k]).insertionSort (fun u v => u ≤ v), hlen with
    | [w, x, y, z], _ => exact ⟨w, x, y, z, rfl⟩
  have hpush : Node.push [a, b, c] k = (true, [w, x, y, z]) := by
    rw [Node.push, Tree.not_mem_any hk, ← e]
    rfl
  refine ⟨w, x, y, z, e, ?_, ?_, ?_, rfl, rfl⟩
  · rw [← e]; exact List.sorted_insertionSort _ _
  · rw [← e]
    exact (List.perm_insertionSort _ _).trans (by simp)
  · simp [insert, Tree.insert, insert_body, hpush, Node.size, MAX_LEAF_KEYS, Node.pop_min,
      Node.pop_max,
      NODE_HEIGHT, EMPTY_NODE_HEIGHT, balance, update_height, balance_keys, balance_nodes]

/-- C16, as stated, fails: inserting 4 into the leaf holding 1, 2, 3 leaves the two keys
2, 3 in the node, not a single middle key. -/
theorem leaf_split_keeps_two_keys :
    insert 2 4 (node [1, 2, 3] 0 null null)
      = some (node [2, 3] 1 (node [1] 0 null null) (node [4] 0 null null)) ∧
    Node.size [(2 : Int), 3] ≠ 1 := by
  decide

/-- C17, as amended: when `insert` adds a key `k` strictly between the two keys `a < b` of
an internal node, the node evicts its minimum `a` into the left subtree if the cached
height of the left subtree is at most that of the right subtree (an absent left subtree
included), and otherwise evicts its maximum `b` into the right subtree; the node then holds
exactly the two keys `k, b`, respectively `a, k`, when it is rebalanced. -/
theorem internal_overflow (a b k h : Int) (l r : Tree) (g : Nat) (hak : a < k) (hkb : k < b)
    (hint : Node.is_leaf l r = false) :
    (height l ≤ height r →
      insert (g + 1) k (node [a, b] h l r)
        = (Tree.insert g a l).bind fun l1 =>
            balance (Tree.insert g) (Tree.remove g) (node [k, b] h l1 r)) ∧
    (¬ height l ≤ height r →
      insert (g + 1) k (node [a, b] h l r)
        = (Tree.insert g b r).bind fun r1 =>
            balance (Tree.insert g) (Tree.remove g) (node [a, k] h l r1)) ∧
    Node.size [k, b] = 2 ∧ Node.size [a, k] = 2 := by
  have hk : k ∉ [a, b] := by
    simp only [List.mem_cons, List.mem_singleton, List.not_mem_nil, or_false, not_or]
    constructor <;> omega
  have hpush : Node.push [a, b] k = (true, [a, k, b]) := by
    rw [Node.push, Tree.not_mem_any hk]
    have h1 : ¬ k ≤ a := by omega
    have h2 : k ≤ b := by omega
    have h3 : a ≤ k := by omega
    have h4 : a ≤ b := by omega
    have h5 : ¬ b ≤ k := by omega
    simp [List.insertionSort, List.orderedInsert, h1, h2, h3, h4, h5]
  have c1 : ¬ k < a := by omega
  have c2 : ¬ k > b := by omega
  refine ⟨fun hc => ?_, fun hc => ?_, rfl, rfl⟩
  · simp [insert, Tree.insert, insert_body, hint, Node.min, Node.max, c1, c2, hpush, Node.size,
      MAX_INTERNAL_NODE_KEYS, hc, Node.pop_min]
  · simp [insert, Tree.insert, insert_body, hint, Node.min, Node.max, c1, c2, hpush, Node.size,
      MAX_INTERNAL_NODE_KEYS, hc, Node.pop_max]

/-- C17, as stated, fails when the two subtrees are equally high: inserting 4 into the tree
built from 5, 1, 9, 3 evicts the minimum 3 into the left subtree, although the left subtree
is not strictly shallower than the right one. -/
theorem internal_overflow_equal_heights :
    sample = node [3, 5] 1 (node [1] 0 null null) (node [9] 0 null null) ∧
    ¬ (height (node [1] 0 null null) < height (node [9] 0 null null)) ∧
    insert 2 4 sample = some (node [4, 5] 1 (node [1, 3] 0 null null) (node [9] 0 null null)) ∧
    insert 2 4 sample ≠ some (node [3, 4] 1 (node [1] 0 null null) (node [5, 9] 0 null null)) := by
  decide

end DualAVLTree

/-! ## Children and cached heights -/

namespace DualAVLTree

open Tree

theorem Tree.Inv.twoOrNone {t : Tree} (hI : Inv t) : TwoOrNone t := by
  induction t with
  | null => trivial
  | node ks h l r ihl ihr =>
    obtain ⟨h1, h2, -, -, -, -, h7⟩ := id hI
    refine ⟨?_, ihl h1, ihr h2⟩
    rcases h7 with ⟨hl, hr, -⟩ | ⟨hl, hr, -⟩
    · exact Or.inl ⟨hl, hr⟩
    · exact Or.inr ⟨hl, hr⟩

theorem Tree.Inv.heightsCached {t : Tree} (hI : Inv t) : HeightsCached t := by
  induction t with
  | null => trivial
  | node ks h l r ihl ihr =>
    obtain ⟨h1, h2, -, h4, -⟩ := id hI
    refine ⟨?_, ihl h1, ihr h2⟩
    rw [h1.realHeight_eq, h2.realHeight_eq, h4]
    ring

/-- C19: on every reachable tree, every node has either no child or exactly two children. -/
theorem reachable_two_or_none (t : Tree) (h : Reachable t) : TwoOrNone t :=
  h.good.1.twoOrNone

/-- C20: on every reachable tree, every node caches the true height of its subtree,
`1 + max(height(left), height(right))` with an absent child counted as `-1` (so a leaf
caches 0); hence `height(n)`, which `balance` compares, is the true height of `n`. -/
theorem reachable_heights_cached (t : Tree) (h : Reachable t) :
    HeightsCached t ∧ height t = realHeight t ∧
    (∀ ks c, t = node ks c null null → c = 0) :=
  ⟨h.good.1.heightsCached, h.good.1.realHeight_eq.symm, fun ks c e => by
    have h1 := h.good.1
    rw [e] at h1
    simpa using h1.2.2.2.1⟩

end DualAVLTree

/-! ## Key rotation -/

namespace DualAVLTree
namespace Tree

theorem realHeight_ge (t : Tree) : -1 ≤ realHeight t := by
  induction t with
  | null => simp [realHeight]
  | node ks h l r ihl ihr => simp only [realHeight]; omega

theorem null_of_realHeight_neg {t : Tree} (h : realHeight t ≤ -1) : t = null := by
  cases t with
  | null => rfl
  | node ks c l r =>
    have := realHeight_ge l
    have := realHeight_ge r
    simp only [realHeight] at h
    omega

theorem low_inv {t : Tree} (h : realHeight t ≤ 0) (hC : Capacity t) (hH : HeightsCached t) :
    Inv t ∧ height t ≤ 0 := by
  cases t with
  | null => exact ⟨trivial, by simp⟩
  | node ks c l r =>
    have := realHeight_ge l
    have := realHeight_ge r
    simp only [realHeight] at h
    obtain rfl := null_of_realHeight_neg (t := l) (by omega)
    obtain rfl := null_of_realHeight_neg (t := r) (by omega)
    obtain ⟨h1, -⟩ := hH
    obtain ⟨h2, -⟩ := hC
    simp [realHeight] at h1
    simp [Node.size, MAX_LEAF_KEYS] at h2
    subst h1
    exact ⟨Inv.leaf (List.length_pos.1 h2.1) h2.2, by simp⟩

theorem is_leaf_false_right (l : Tree) {r : Tree} (hr : r ≠ null) :
    Node.is_leaf l r = false := by
  cases r with
  | null => exact absurd rfl hr
  | node _ _ _ _ => simp

theorem Inv.null_of_height_neg {t : Tree} (hI : Inv t) (h : height t ≤ -1) : t = null := by
  by_contra hc
  have := hI.height_nonneg hc
  omega

theorem balance_low (ins rem : Int → Tree → Option Tree) (ks : List Int) (h : Int)
    (l r : Tree) (hl : Inv l) (hr : Inv r) (hl0 : height l ≤ 0) (hr0 : height r ≤ 0)
    (hks : ks ≠ []) (hlen : ks.length ≤ 2)
    (hs : (keysOf l ++ ks ++ keysOf r).Sorted (· < ·))
    (hins : ∀ m, ins m null = some (node [m] 0 null null))
    (hlow : ∀ t, Inv t → height t ≤ 0 → (keysOf t).Sorted (· < ·) →
      ∀ m, ∃ t1, rem m t = some t1 ∧ RemPost t m t1) :
    ∃ t, balance ins rem (node ks h l r) = some t ∧ Inv t ∧
      keysOf t = keysOf l ++ ks ++ keysOf r ∧ 0 ≤ height t ∧ height t ≤ 1 := by
  obtain ⟨hsL, -, hsR, -⟩ := sorted_parts hs
  by_cases c : l = null ∧ r = null
  · obtain ⟨rfl, rfl⟩ := c
    exact ⟨node ks 0 null null, balance_leaf ins rem ks h, Inv.leaf hks (by omega), by simp,
      by simp, by simp⟩
  · have hnn : l ≠ null ∨ r ≠ null := by
      by_contra hc
      simp only [not_or, not_not] at hc
      exact c hc
    have := hl.height_ge
    have := hr.height_ge
    obtain ⟨t, e, ht, hkt, htn, hta, htb, -⟩ :=
      balance_spec ins rem ks h l r hl hr hks hlen hnn hs (by omega) (by omega) hins
        (fun _ => hlow l hl hl0 hsL) (fun _ => hlow r hr hr0 hsR)
    exact ⟨t, e, ht, hkt, ht.height_nonneg htn, by omega⟩

theorem remove_body_low (ins rem : Int → Tree → Option Tree) (k : Int)
    (ks : List Int) (h : Int) (l r : Tree) (hIl : Inv l) (hIr : Inv r)
    (hl0 : height l ≤ 0) (hr0 : height r ≤ 0) (hnn : l ≠ null ∨ r ≠ null)
    (hks : ks ≠ []) (hlen : ks.length ≤ 2) (hh : h = Max.max (height l) (height r) + 1)
    (hS : (keysOf (node ks h l r)).Sorted (· < ·))
    (hins : ∀ m, ins m null = some (node [m] 0 null null))
    (hlow : ∀ t, Inv t → height t ≤ 0 → (keysOf t).Sorted (· < ·) →
      ∀ m, ∃ t1, rem m t = some t1 ∧ RemPost t m t1) :
    ∃ t, remove_body ins rem k (node ks h l r) = some t ∧ RemPost (node ks h l r) k t := by
  have hSe := sorted_erase hS k
  simp only [keysOf_node] at hS
  obtain ⟨hsL, hsk, hsR, hLk, hkR, hLR⟩ := sorted_parts hS
  have herase := Node.erase_spec ks k
  have hnl : Node.is_leaf l r = false := by
    rcases hnn with hn | hn
    · exact is_leaf_false_left r hn
    · exact is_leaf_false_right l hn
  have hh1 : h = 1 := by
    have := hIl.height_ge
    have := hIr.height_ge
    rcases hnn with hn | hn
    · have := hIl.height_nonneg hn; omega
    · have := hIr.height_nonneg hn; omega
  obtain ⟨a, b, ea, eb, hak, hbk, hmin, hmax⟩ := min_max_spec hks hsk
  have hab : a ≤ b := hmin b hbk
  have hkL : a ≤ k → k ∉ keysOf l := fun hak1 hc => by
    have := hLk k hc a hak; omega
  have hkR1 : k ≤ b → k ∉ keysOf r := fun hbk1 hc => by
    have := hkR b hbk k hc; omega
  by_cases c1 : k < a
  · obtain ⟨l1, el, hl1, hkl, hl1a, hl1b⟩ := hlow l hIl hl0 hsL k
    have hkeys : (keysOf (node ks h l r)).erase k = keysOf l1 ++ ks ++ keysOf r := by
      rw [keysOf_node, hkl, List.append_assoc, List.append_assoc]
      refine erase_append_of_not_mem_right ?_
      intro hc
      rcases List.mem_append.1 hc with hc | hc
      · have := hmin k hc; omega
      · exact hkR1 (by omega) hc
    rw [hkeys] at hSe
    obtain ⟨t, e, ht, hkt, hta, htb⟩ :=
      balance_low ins rem ks h l1 r hl1 hIr (by omega) hr0 hks hlen hSe hins hlow
    refine ⟨t, ?_, ht, by rw [hkt, hkeys], ?_, ?_⟩
    · simp [remove_body, hnl, ea, c1, el, e]
    · simp only [height_node]; omega
    · simp only [height_node]; omega
  · by_cases c2 : k > b
    · obtain ⟨r1, er, hr1, hkr, hr1a, hr1b⟩ := hlow r hIr hr0 hsR k
      have hkeys : (keysOf (node ks h l r)).erase k = keysOf l ++ ks ++ keysOf r1 := by
        rw [keysOf_node, hkr]
        refine List.erase_append_right _ ?_
        intro hc
        rcases List.mem_append.1 hc with hc | hc
        · exact hkL (by omega) hc
        · have := hmax k hc; omega
      rw [hkeys] at hSe
      obtain ⟨t, e, ht, hkt, hta, htb⟩ :=
        balance_low ins rem ks h l r1 hIl hr1 hl0 (by omega) hks hlen hSe hins hlow
      refine ⟨t, ?_, ht, by rw [hkt, hkeys], ?_, ?_⟩
      · simp [remove_body, hnl, ea, c1, eb, c2, er, e]
      · simp only [height_node]; omega
      · simp only [height_node]; omega
    · by_cases hk : k ∈ ks
      · have hkeys0 : (keysOf (node ks h l r)).erase k
            = keysOf l ++ ks.erase k ++ keysOf r := by
          rw [keysOf_node, List.append_assoc, List.erase_append_right _ (hkL (by omega)),
            List.erase_append_left _ hk, List.append_assoc]
        have hske := sorted_erase hsk k
        have hlene : (ks.erase k).length + 1 = ks.length := by
          rw [List.length_erase_of_mem hk]
          have := List.length_pos_of_mem hk
          omega
        have hsub : ∀ y ∈ ks.erase k, y ∈ ks := fun y hy => List.mem_of_mem_erase hy
        by_cases c3 : height l ≤ height r
        · have hrn : r ≠ null := by
            rintro rfl
            simp only [height_null] at c3
            rcases hnn with hn | hn
            · exact hn (hIl.null_of_height_neg c3)
            · exact hn rfl
          obtain ⟨rn, rks, m, tl, e1, e2, e3, e4⟩ := find_min_spec hIr hrn
          obtain ⟨r1, er, hr1, hkr, hr1a, hr1b⟩ := hlow r hIr hr0 hsR m
          rw [e4, List.erase_cons_head] at hkr
          have hpush : (Node.push (ks.erase k) m).2 = ks.erase k ++ [m] := by
            rw [Node.push_spec _ m hske]
            exact insertKey_eq_append m _ (fun y hy => hkR y (hsub y hy) m (by simp [e4]))
          have hkeys : (keysOf (node ks h l r)).erase k
              = keysOf l ++ (ks.erase k ++ [m]) ++ keysOf r1 := by
            rw [hkeys0, hkr, e4]; simp
          rw [hkeys] at hSe
          obtain ⟨t, e, ht, hkt, hta, htb⟩ :=
            balance_low ins rem (ks.erase k ++ [m]) h l r1 hIl hr1 hl0 (by omega) (by simp)
              (by simp; omega) hSe hins hlow
          refine ⟨t, ?_, ht, by rw [hkt, hkeys], ?_, ?_⟩
          · simp [remove_body, hnl, ea, c1, eb, c2, herase, hk, c3, e1, e2, e3, er, hpush, e]
          · simp only [height_node]; omega
          · simp only [height_node]; omega
        · have hln : l ≠ null := by
            rintro rfl
            have := hIr.height_ge
            simp only [height_null] at c3
            omega
          obtain ⟨ln, lks, m, tl, e1, e2, e3, e4⟩ := find_max_spec hIl hln
          obtain ⟨l1, el, hl1, hkl, hl1a, hl1b⟩ := hlow l hIl hl0 hsL m
          have hmtl : m ∉ tl := by
            intro hm
            rw [e4] at hsL
            have := (List.pairwise_append.1 hsL).2.2 m hm m (by simp)
            omega
          rw [e4, List.erase_append_right _ hmtl] at hkl
          simp only [List.erase_cons_head, List.append_nil] at hkl
          have hpush : (Node.push (ks.erase k) m).2 = m :: ks.erase k := by
            rw [Node.push_spec _ m hske]
            exact insertKey_eq_cons m _ (fun y hy => hLk m (by simp [e4]) y (hsub y hy))
          have hkeys : (keysOf (node ks h l r)).erase k
              = keysOf l1 ++ (m :: ks.erase k) ++ keysOf r := by
            rw [hkeys0, hkl, e4]; simp
          rw [hkeys] at hSe
          obtain ⟨t, e, ht, hkt, hta, htb⟩ :=
            balance_low ins rem (m :: ks.erase k) h l1 r hl1 hIr (by omega) hr0 (by simp)
              (by simp; omega) hSe hins hlow
          refine ⟨t, ?_, ht, by rw [hkt, hkeys], ?_, ?_⟩
          · simp [remove_body, hnl, ea, c1, eb, c2, herase, hk, c3, e1, e2, e3, el, hpush, e]
          · simp only [height_node]; omega
          · simp only [height_node]; omega
      · have hkeys : (keysOf (node ks h l r)).erase k = keysOf l ++ ks ++ keysOf r := by
          rw [keysOf_node]
          refine List.erase_of_not_mem ?_
          simp only [List.mem_append, not_or]
          exact ⟨⟨hkL (by omega), hk⟩, hkR1 (by omega)⟩
        obtain ⟨t, e, ht, hkt, hta, htb⟩ :=
          balance_low ins rem ks h l r hIl hIr hl0 hr0 hks hlen hS hins hlow
        refine ⟨t, ?_, ht, by rw [hkt, hkeys], ?_, ?_⟩
        · simp [remove_body, hnl, ea, c1, eb, c2, herase, hk, e]
        · simp only [height_node]; omega
        · simp only [height_node]; omega

end Tree
end DualAVLTree

namespace DualAVLTree
namespace Tree

theorem remove_null (g : Nat) (m : Int) :
    ∃ t1, remove (g + 1) m null = some t1 ∧ RemPost null m t1 :=
  ⟨null, by simp [remove, remove_body], trivial, by simp, by simp, by simp⟩

theorem remove_low (g : Nat) (t : Tree) (hI : Inv t) (h0 : height t ≤ 0)
    (hS : (keysOf t).Sorted (· < ·)) (m : Int) :
    ∃ t1, remove (g + 2) m t = some t1 ∧ RemPost t m t1 := by
  cases t with
  | null => exact remove_null (g + 1) m
  | node ks h l r =>
    obtain ⟨hIl, hIr, -, hh, -⟩ := id hI
    simp only [height_node] at h0
    have := hIl.height_ge
    have := hIr.height_ge
    obtain rfl := hIl.null_of_height_neg (by omega)
    obtain rfl := hIr.null_of_height_neg (by omega)
    rw [remove]
    exact remove_body_spec _ _ m ks h null null hI hS (fun k => insert_null g k)
      (remove_null g) (remove_null g)

theorem remove_low_root (g : Nat) (ks : List Int) (h : Int) (l r : Tree)
    (hIl : Inv l) (hIr : Inv r) (hl0 : height l ≤ 0) (hr0 : height r ≤ 0)
    (hnn : l ≠ null ∨ r ≠ null) (hks : ks ≠ []) (hlen : ks.length ≤ 2)
    (hh : h = Max.max (height l) (height r) + 1)
    (hS : (keysOf (node ks h l r)).Sorted (· < ·)) (m : Int) :
    ∃ t1, remove (g + 3) m (node ks h l r) = some t1 ∧ RemPost (node ks h l r) m t1 := by
  rw [remove]
  exact remove_body_low _ _ m ks h l r hIl hIr hl0 hr0 hnn hks hlen hh hS
    (fun k => insert_null (g + 1) k) (fun t hI h0 hSt k => remove_low g t hI h0 hSt k)

theorem find_min_node {ks : List Int} (h : Int) {l : Tree} (r : Tree) (hks : ks ≠ [])
    (hl : Inv l) :
    ∃ rn rks m tl, find_min (node ks h l r) = some rn ∧ keys? rn = some rks ∧
      Node.min rks = some m ∧ keysOf (node ks h l r) = m :: tl := by
  cases l with
  | null =>
    obtain ⟨a, rest, rfl⟩ := List.exists_cons_of_ne_nil hks
    exact ⟨_, _, a, rest ++ keysOf r, rfl, rfl, rfl, by simp⟩
  | node lks lh ll lr =>
    obtain ⟨rn, rks, m, tl, e1, e2, e3, e4⟩ := find_min_spec hl (by simp)
    refine ⟨rn, rks, m, tl ++ ks ++ keysOf r, ?_, e2, e3, ?_⟩
    · simpa [find_min] using e1
    · rw [keysOf_node, e4]; simp

theorem find_max_node {ks : List Int} (h : Int) (l : Tree) {r : Tree} (hks : ks ≠ [])
    (hr : Inv r) :
    ∃ rn rks m tl, find_max (node ks h l r) = some rn ∧ keys? rn = some rks ∧
      Node.max rks = some m ∧ keysOf (node ks h l r) = tl ++ [m] := by
  cases r with
  | null =>
    obtain ⟨rest, a, rfl⟩ : ∃ rest a, ks = rest ++ [a] :=
      ⟨ks.dropLast, ks.getLast hks, (List.dropLast_append_getLast hks).symm⟩
    exact ⟨_, _, a, keysOf l ++ rest, rfl, rfl, by simp [Node.max], by simp⟩
  | node rks rh rl rr =>
    obtain ⟨rn, rks1, m, tl, e1, e2, e3, e4⟩ := find_max_spec hr (by simp)
    refine ⟨rn, rks1, m, keysOf l ++ ks ++ tl, ?_, e2, e3, ?_⟩
    · simpa [find_max] using e1
    · rw [keysOf_node, e4]; simp

/-- What the key rotations need of the present child `c` of a one-sided node, from the
order, capacity and balance invariants with true heights cached and height at most 1. -/
theorem low_child (c : Tree) (hcn : c ≠ null) (hC : Capacity c) (hH : HeightsCached c)
    (h1 : realHeight c ≤ 1) (hS : (keysOf c).Sorted (· < ·)) :
    0 ≤ height c ∧ height c ≤ 1 ∧
    (∀ g m, ∃ c1, remove (g + 3) m c = some c1 ∧ RemPost c m c1) ∧
    (∃ rn rks m tl, find_min c = some rn ∧ keys? rn = some rks ∧ Node.min rks = some m ∧
      keysOf c = m :: tl) ∧
    (∃ rn rks m tl, find_max c = some rn ∧ keys? rn = some rks ∧ Node.max rks = some m ∧
      keysOf c = tl ++ [m]) := by
  cases c with
  | null => exact absurd rfl hcn
  | node ks h l r =>
    obtain ⟨hc1, hCl, hCr⟩ := hC
    obtain ⟨hh, hHl, hHr⟩ := hH
    have := realHeight_ge l
    have := realHeight_ge r
    simp only [realHeight] at h1
    obtain ⟨hIl, hl0⟩ := low_inv (t := l) (by omega) hCl hHl
    obtain ⟨hIr, hr0⟩ := low_inv (t := r) (by omega) hCr hHr
    rw [hIl.realHeight_eq, hIr.realHeight_eq] at hh
    have hlg := hIl.height_ge
    have hrg := hIr.height_ge
    have hks : ks ≠ [] := by
      have : 1 ≤ ks.length := by
        split at hc1
        · exact hc1.1
        · exact hc1.1
      exact List.length_pos.1 this
    refine ⟨by simp only [height_node]; omega, by simp only [height_node]; omega, ?_,
      find_min_node h r hks hIl, find_max_node h l hks hIr⟩
    intro g m
    by_cases c : l = null ∧ r = null
    · obtain ⟨rfl, rfl⟩ := c
      have hlen : ks.length ≤ 3 := by
        have hc2 := hc1
        simp only [is_leaf_null_null, if_true, Node.size, MAX_LEAF_KEYS] at hc2
        exact hc2.2
      have hI : Inv (node ks h null null) := by
        simp only [height_null] at hh
        rw [hh]
        exact Inv.leaf hks hlen
      exact remove_low (g + 1) _ hI (by simp only [height_node, height_null] at hh ⊢; omega) hS m
    · have hnn : l ≠ null ∨ r ≠ null := by
        by_contra hc
        simp only [not_or, not_not] at hc
        exact c hc
      have hnl : Node.is_leaf l r = false := by
        rcases hnn with hn | hn
        · exact is_leaf_false_left r hn
        · exact is_leaf_false_right l hn
      have hlen : ks.length ≤ 2 := by
        have hc2 := hc1
        rw [hnl] at hc2
        simp only [Bool.false_eq_true, if_false, Node.size, MAX_INTERNAL_NODE_KEYS] at hc2
        exact hc2.2
      exact remove_low_root g ks h l r hIl hIr hl0 hr0 hnn hks hlen (by rw [hh]; ring) hS m

end Tree
end DualAVLTree

namespace DualAVLTree

open Tree

theorem Tree.Inv.root_shape {t : Tree} (hI : Inv t) (hn : t ≠ null) :
    ∃ ks h l r, t = node ks h l r ∧
      ((l = null ∧ r = null ∧ Node.size ks ≤ MAX_LEAF_KEYS) ∨ (l ≠ null ∧ r ≠ null)) := by
  cases t with
  | null => exact absurd rfl hn
  | node ks h l r =>
    refine ⟨ks, h, l, r, rfl, ?_⟩
    rcases hI.2.2.2.2.2.2 with ⟨hl, hr, hlen⟩ | ⟨hl, hr, -⟩
    · exact Or.inl ⟨hl, hr, hlen⟩
    · exact Or.inr ⟨hl, hr⟩

/-- C18: let `n` be a node with 1 or 2 keys and exactly one child, the subtree of `n` being
in search order, the child subtree satisfying the capacity rule, caching its true heights
and having height at most 1 (so it is balanced). Then `balance(n)` returns, and the
returned subtree stores the same keys, satisfies the order, capacity and AVL balance
invariants at every node (no node is left to repair: every node has no child or two
children and caches its true height), and its root is a leaf with at most 3 keys or has
both children. The left child absent and the right child absent are both covered. -/
theorem key_rotation_single_pass (ks : List Int) (h : Int) (l r : Tree)
    (hside : (l = null ∧ r ≠ null) ∨ (l ≠ null ∧ r = null))
    (hks : 1 ≤ Node.size ks ∧ Node.size ks ≤ 2)
    (hS : (keysOf (node ks h l r)).Sorted (· < ·))
    (hCl : Capacity l) (hCr : Capacity r) (hHl : HeightsCached l) (hHr : HeightsCached r)
    (h1l : realHeight l ≤ 1) (h1r : realHeight r ≤ 1) :
    ∃ t, (∃ f, ∀ g, f ≤ g →
        balance (Tree.insert g) (Tree.remove g) (node ks h l r) = some t) ∧
      keysOf t = keysOf (node ks h l r) ∧
      SearchOrder t ∧ Capacity t ∧ AVL t ∧ TwoOrNone t ∧ HeightsCached t ∧
      ∃ tks th tl tr, t = node tks th tl tr ∧
        ((tl = null ∧ tr = null ∧ Node.size tks ≤ MAX_LEAF_KEYS) ∨ (tl ≠ null ∧ tr ≠ null)) := by
  have hks0 : ks ≠ [] := List.length_pos.1 hks.1
  have hfle : ∀ g, 3 ≤ g → FunLe (Tree.insert 3) (Tree.insert g) ∧
      FunLe (Tree.remove 3) (Tree.remove g) := fun g hg =>
    ⟨fun _ _ _ e => insert_mono hg e, fun _ _ _ e => remove_mono hg e⟩
  have hfin : ∀ t, Tree.Inv t → t ≠ null → keysOf t = keysOf (node ks h l r) →
      balance (Tree.insert 3) (Tree.remove 3) (node ks h l r) = some t →
      ∃ t, (∃ f, ∀ g, f ≤ g →
          balance (Tree.insert g) (Tree.remove g) (node ks h l r) = some t) ∧
        keysOf t = keysOf (node ks h l r) ∧
        SearchOrder t ∧ Capacity t ∧ AVL t ∧ TwoOrNone t ∧ HeightsCached t ∧
        ∃ tks th tl tr, t = node tks th tl tr ∧
          ((tl = null ∧ tr = null ∧ Node.size tks ≤ MAX_LEAF_KEYS) ∨
            (tl ≠ null ∧ tr ≠ null)) := by
    intro t ht htn hkt e
    refine ⟨t, ⟨3, fun g hg => balance_mono (hfle g hg).1 (hfle g hg).2 _ _ e⟩, hkt,
      ht.searchOrder (by rw [hkt]; exact hS), ht.capacity, ht.avl, ht.twoOrNone,
      ht.heightsCached, ht.root_shape htn⟩
  obtain ⟨hsL, -, hsR, -⟩ := sorted_parts (by simpa using hS)
  rcases hside with ⟨rfl, hrn⟩ | ⟨hln, rfl⟩
  · obtain ⟨hr0, hr1, hrem, ⟨rn, rks, m, tl, e1, e2, e3, e4⟩, -⟩ :=
      low_child r hrn hCr hHr h1r hsR
    obtain ⟨t, e, ht, hkt, htn, -, -⟩ :=
      balance_left_core (Tree.insert 3) (Tree.remove 3) ks h r hrn hr0 hks0 hks.2
        (by simpa using hS) hr1 (fun k => insert_null 2 k)
        ⟨rn, rks, m, tl, e1, e2, e3, e4, hrem 0 m⟩
    exact hfin t ht htn (by simpa using hkt) e
  · obtain ⟨hl0, hl1, hrem, -, ⟨ln, lks, m, tl, e1, e2, e3, e4⟩⟩ :=
      low_child l hln hCl hHl h1l hsL
    obtain ⟨t, e, ht, hkt, htn, -, -⟩ :=
      balance_right_core (Tree.insert 3) (Tree.remove 3) ks h l hln hl0 hks0 hks.2
        (by simpa using hS) hl1 (fun k => insert_null 2 k)
        ⟨ln, lks, m, tl, e1, e2, e3, e4, hrem 0 m⟩
    exact hfin t ht htn (by simpa using hkt) e

end DualAVLTree

/-! ## The further contract at concrete trees -/

namespace DualAVLTree

open Tree

theorem range_is_fold_witness :
    (1 : Int) ≤ 2 ∧ KEY_NEG_INF ≤ 0 ∧ (∀ k ∈ progression 0 10 2, k + 2 ≤ KEY_POS_INF) ∧
      ∀ fuel iters, (progression 0 10 2).length ≤ iters →
        insert_range fuel iters 0 10 2 sample = insert_all fuel (progression 0 10 2) sample ∧
        remove_range fuel iters 0 10 2 sample = remove_all fuel (progression 0 10 2) sample :=
  ⟨by decide, by decide, by decide,
    (range_is_fold sample 0 10 2 (by decide) (by decide) (by decide)).2.2.1⟩

theorem range_statistics_orders_witness :
    List.Perm [10, 8, 6, 4, 2, 0] ([0, 2, 4, 6, 8, 10] : List Int) ∧
      ∀ g, 2 ≤ g →
        (insert_all g [10, 8, 6, 4, 2, 0] null).bind get_statistics = some [3, 1, 0, 1] ∨
        (insert_all g [10, 8, 6, 4, 2, 0] null).bind get_statistics = some [3, 0, 2, 0] :=
  ⟨by decide, (range_statistics_orders [10, 8, 6, 4, 2, 0] (by decide)).2.2⟩

theorem duplicate_insert_noop_witness :
    Reachable sample ∧ (3 : Int) ∈ keysOf sample ∧
      ((∃ f, ∀ g, f ≤ g → insert g 3 sample = some sample) ∧
      (∀ ks : List Int, (3 : Int) ∈ ks → Node.push ks 3 = (false, ks))) :=
  ⟨sample_reachable, by decide, duplicate_insert_noop sample sample_reachable 3 (by decide)⟩

theorem remove_missing_noop_witness :
    Reachable sample ∧ (4 : Int) ∉ keysOf sample ∧
      ∃ f, ∀ g, f ≤ g → remove g 4 sample = some sample :=
  ⟨sample_reachable, by decide, remove_missing_noop sample sample_reachable 4 (by decide)⟩

theorem insert_remove_total_witness :
    Reachable sample ∧
      ((∃ t1 f, ∀ g, f ≤ g → insert g 7 sample = some t1) ∧
      (∃ t2 f, ∀ g, f ≤ g → remove g 7 sample = some t2)) :=
  ⟨sample_reachable, insert_remove_total sample sample_reachable 7⟩

theorem leaf_split_witness :
    (4 : Int) ∉ [(1 : Int), 2, 3] ∧
      ∃ w x y z, ([1, 2, 3] ++ [4]).insertionSort (fun u v : Int => u ≤ v) = [w, x, y, z] ∧
        List.Sorted (· ≤ ·) [w, x, y, z] ∧ List.Perm [w, x, y, z] [1, 2, 3, 4] ∧
        insert (0 + 2) 4 (node [1, 2, 3] 0 null null)
          = some (node [x, y] 1 (node [w] 0 null null) (node [z] 0 null null)) ∧
        Node.is_leaf (node [w] 0 null null) (node [z] 0 null null) = false ∧
        Node.size [x, y] = 2 :=
  ⟨by decide, leaf_split 1 2 3 4 0 (by decide) 0⟩

theorem internal_overflow_witness :
    (3 : Int) < 4 ∧ (4 : Int) < 5 ∧
      Node.is_leaf (node [1] 0 null null) (node [9] 0 null null) = false ∧
      (height (node [1] 0 null null) ≤ height (node [9] 0 null null) →
        insert (1 + 1) 4 (node [3, 5] 1 (node [1] 0 null null) (node [9] 0 null null))
          = (Tree.insert 1 3 (node [1] 0 null null)).bind fun l1 =>
              balance (Tree.insert 1) (Tree.remove 1) (node [4, 5] 1 l1 (node [9] 0 null null))) :=
  ⟨by decide, by decide, by decide,
    (internal_overflow 3 5 4 1 (node [1] 0 null null) (node [9] 0 null null) 1
      (by decide) (by decide) (by decide)).1⟩

theorem key_rotation_single_pass_witness :
    ((null = null ∧ node [10] 1 null (node [20] 0 null null) ≠ null) ∨
        (null ≠ null ∧ node [10] 1 null (node [20] 0 null null) = null)) ∧
      (1 ≤ Node.size [(5 : Int)] ∧ Node.size [(5 : Int)] ≤ 2) ∧
      (keysOf (node [5] 2 null (node [10] 1 null (node [20] 0 null null)))).Sorted (· < ·) ∧
      Capacity (node [10] 1 null (node [20] 0 null null)) ∧
      HeightsCached (node [10] 1 null (node [20] 0 null null)) ∧
      realHeight (node [10] 1 null (node [20] 0 null null)) ≤ 1 ∧
      ∃ t, (∃ f, ∀ g, f ≤ g → balance (Tree.insert g) (Tree.remove g)
          (node [5] 2 null (node [10] 1 null (node [20] 0 null null))) = some t) ∧
        keysOf t = keysOf (node [5] 2 null (node [10] 1 null (node [20] 0 null null))) ∧
        SearchOrder t ∧ Capacity t ∧ AVL t ∧ TwoOrNone t ∧ HeightsCached t ∧
        ∃ tks th tl tr, t = node tks th tl tr ∧
          ((tl = null ∧ tr = null ∧ Node.size tks ≤ MAX_LEAF_KEYS) ∨
            (tl ≠ null ∧ tr ≠ null)) :=
  ⟨by decide, by decide, by decide, by decide, by decide, by decide,
    key_rotation_single_pass [5] 2 null (node [10] 1 null (node [20] 0 null null))
      (by decide) (by decide) (by decide) (by decide) (by decide) (by decide) (by decide)
      (by decide) (by decide)⟩

theorem reachable_two_or_none_witness : Reachable sample ∧ TwoOrNone sample :=
  ⟨sample_reachable, reachable_two_or_none sample sample_reachable⟩

theorem reachable_heights_cached_witness :
    Reachable sample ∧ (HeightsCached sample ∧ height sample = realHeight sample ∧
      (∀ ks c, sample = node ks c null null → c = 0)) :=
  ⟨sample_reachable, reachable_heights_cached sample sample_reachable⟩

end DualAVLTree
